import Mathlib

/-!
Verification of the local-filesystem S3-like storage server (s3server.py).

We shallowly embed the core of the server: the MD5 digest used for part
checksums and directory sharding, the multipart-upload session
(`_MultipartUploader`), the process-wide registry of uploads, the POSIX
path functions used by `_object_path`, and the bucket-listing algorithm
of `BucketHandler.get`.  Python byte strings are modelled as `List Char`
(each character standing for one byte), machine integers as `Nat`/`Int`
with explicit reduction modulo powers of two where the code overflows.
-/

namespace S3

/-- Python 2 `str` values (byte strings): modelled as lists of characters. -/
abbrev Str := List Char

/-! ## MD5 (`hashlib.md5`)

The server uses `hashlib.md5(...).hexdigest()` both for part checksums
(ETags) and for the directory-sharding scheme of `_object_path`.  We embed
the MD5 algorithm (RFC 1321) over `Nat` with explicit `% 2^32`. -/

/-- Reduce modulo `2^32`. -/
def m32 (x : Nat) : Nat := x % 4294967296

/-- 32-bit bitwise complement. -/
def bnot32 (x : Nat) : Nat := x ^^^ 4294967295

/-- 32-bit left rotation by `s` (for `x < 2^32`, `s < 32`). -/
def rotl32 (x s : Nat) : Nat := ((x <<< s) % 4294967296) ||| (x >>> (32 - s))

/-- The 64 MD5 round constants `K[i] = floor(2^32 * abs(sin(i+1)))`. -/
def md5K : List Nat :=
  [0xd76aa478, 0xe8c7b756, 0x242070db, 0xc1bdceee,
   0xf57c0faf, 0x4787c62a, 0xa8304613, 0xfd469501,
   0x698098d8, 0x8b44f7af, 0xffff5bb1, 0x895cd7be,
   0x6b901122, 0xfd987193, 0xa679438e, 0x49b40821,
   0xf61e2562, 0xc040b340, 0x265e5a51, 0xe9b6c7aa,
   0xd62f105d, 0x02441453, 0xd8a1e681, 0xe7d3fbc8,
   0x21e1cde6, 0xc33707d6, 0xf4d50d87, 0x455a14ed,
   0xa9e3e905, 0xfcefa3f8, 0x676f02d9, 0x8d2a4c8a,
   0xfffa3942, 0x8771f681, 0x6d9d6122, 0xfde5380c,
   0xa4beea44, 0x4bdecfa9, 0xf6bb4b60, 0xbebfbc70,
   0x289b7ec6, 0xeaa127fa, 0xd4ef3085, 0x04881d05,
   0xd9d4d039, 0xe6db99e5, 0x1fa27cf8, 0xc4ac5665,
   0xf4292244, 0x432aff97, 0xab9423a7, 0xfc93a039,
   0x655b59c3, 0x8f0ccc92, 0xffeff47d, 0x85845dd1,
   0x6fa87e4f, 0xfe2ce6e0, 0xa3014314, 0x4e0811a1,
   0xf7537e82, 0xbd3af235, 0x2ad7d2bb, 0xeb86d391]

/-- The 64 MD5 per-round left-rotation amounts. -/
def md5S : List Nat :=
  [7, 12, 17, 22, 7, 12, 17, 22, 7, 12, 17, 22, 7, 12, 17, 22,
   5, 9, 14, 20, 5, 9, 14, 20, 5, 9, 14, 20, 5, 9, 14, 20,
   4, 11, 16, 23, 4, 11, 16, 23, 4, 11, 16, 23, 4, 11, 16, 23,
   6, 10, 15, 21, 6, 10, 15, 21, 6, 10, 15, 21, 6, 10, 15, 21]

/-- MD5 nonlinear round function for round `i`. -/
def md5F (i b c d : Nat) : Nat :=
  if i < 16 then (b &&& c) ||| (bnot32 b &&& d)
  else if i < 32 then (d &&& b) ||| (bnot32 d &&& c)
  else if i < 48 then b ^^^ c ^^^ d
  else c ^^^ (b ||| bnot32 d)

/-- Message-word index used in round `i`. -/
def md5G (i : Nat) : Nat :=
  if i < 16 then i
  else if i < 32 then (5 * i + 1) % 16
  else if i < 48 then (3 * i + 5) % 16
  else (7 * i) % 16

/-- Little-endian 32-bit word number `g` of a 64-byte chunk. -/
def wordAt (chunk : List Nat) (g : Nat) : Nat :=
  chunk.getD (4 * g) 0 + 256 * chunk.getD (4 * g + 1) 0 +
    65536 * chunk.getD (4 * g + 2) 0 + 16777216 * chunk.getD (4 * g + 3) 0

/-- One of the 64 MD5 rounds applied to the running `(a, b, c, d)` state. -/
def md5Step (chunk : List Nat) (st : Nat × Nat × Nat × Nat) (i : Nat) :
    Nat × Nat × Nat × Nat :=
  match st with
  | (a, b, c, d) =>
    let f := (md5F i b c d + a + md5K.getD i 0 + wordAt chunk (md5G i)) % 4294967296
    (d, (b + rotl32 f (md5S.getD i 0)) % 4294967296, b, c)

/-- Process one 64-byte chunk, adding the 64-round result into the state. -/
def md5Chunk (st : Nat × Nat × Nat × Nat) (chunk : List Nat) :
    Nat × Nat × Nat × Nat :=
  match st, (List.range 64).foldl (md5Step chunk) st with
  | (a0, b0, c0, d0), (a, b, c, d) =>
    ((a0 + a) % 4294967296, (b0 + b) % 4294967296,
     (c0 + c) % 4294967296, (d0 + d) % 4294967296)

/-- Split a list into `n` successive 64-byte chunks. -/
def takeChunks : Nat → List Nat → List (List Nat)
  | 0, _ => []
  | n + 1, l => l.take 64 :: takeChunks n (l.drop 64)

/-- MD5 padding: append `0x80`, zeros up to 56 mod 64, then the bit length
as 8 little-endian bytes (modulo `2^64`). -/
def md5Pad (msg : List Nat) : List Nat :=
  let z := (64 - (msg.length + 9) % 64) % 64
  msg ++ [128] ++ List.replicate z 0 ++
    (List.range 8).map (fun i => (8 * msg.length % 18446744073709551616) >>> (8 * i) % 256)

/-- Serialize a 32-bit word as 4 little-endian bytes. -/
def le4 (n : Nat) : List Nat :=
  [n % 256, n >>> 8 % 256, n >>> 16 % 256, n >>> 24 % 256]

/-- The 16-byte MD5 digest of a byte sequence. -/
def md5bytes (msg : List Nat) : List Nat :=
  let padded := md5Pad msg
  match (takeChunks (padded.length / 64) padded).foldl md5Chunk
      (0x67452301, 0xefcdab89, 0x98badcfe, 0x10325476) with
  | (a, b, c, d) => le4 a ++ le4 b ++ le4 c ++ le4 d

/-- Lower-case hexadecimal digit characters. -/
def hexDigits : Str := ("0123456789abcdef".data)

/-- The hexadecimal digit character for `n < 16`. -/
def hexDigit (n : Nat) : Char := hexDigits.getD n '0'

/-- Two hexadecimal characters of one byte. -/
def byteHex (b : Nat) : Str := [hexDigit (b / 16), hexDigit (b % 16)]

/-- `hashlib.md5(s).hexdigest()`: the 32-character hexadecimal MD5 digest
of a byte string. -/
def md5hex (s : Str) : Str :=
  ((md5bytes (s.map (fun c => c.toNat % 256))).map byteHex).flatten

/-! ## Association lists

Python dictionaries (`self.buffers`, `multipart_uploaders`) and the file
system (path to file content) are modelled as association lists with
unique keys; insertion of a fresh key appends at the end. -/

/-- Dictionary lookup: the value stored under key `k`, if any. -/
def lookupKV {α β : Type} [DecidableEq α] (l : List (α × β)) (k : α) : Option β :=
  match l with
  | [] => none
  | e :: rest => if e.1 = k then some e.2 else lookupKV rest k

@[simp] theorem lookupKV_nil {α β : Type} [DecidableEq α] (k : α) :
    lookupKV ([] : List (α × β)) k = none := rfl

@[simp] theorem lookupKV_cons {α β : Type} [DecidableEq α] (e : α × β)
    (rest : List (α × β)) (k : α) :
    lookupKV (e :: rest) k = if e.1 = k then some e.2 else lookupKV rest k := rfl

/-- Dictionary removal (`del d[k]` after the key check succeeded). -/
def eraseKV {α β : Type} [DecidableEq α] (l : List (α × β)) (k : α) : List (α × β) :=
  l.filter (fun e => decide (¬ e.1 = k))

/-- Dictionary assignment `d[k] = v`: replace an existing entry or append. -/
def setKV {α β : Type} [DecidableEq α] (l : List (α × β)) (k : α) (v : β) : List (α × β) :=
  if (lookupKV l k).isSome then l.map (fun e => if e.1 = k then (k, v) else e)
  else l ++ [(k, v)]

/-! ## Multipart uploads (`_MultipartBuffer`, `_MultipartUploader`)

`src/s3server.py` lines 361-439.  File bytes are `Str` (one character per
byte); the destination file handle is modelled by the bytes written so far
(`fileContent`) plus an open/closed flag. -/

/-- Exceptions raised by the server code: `tornado.web.HTTPError(code)`
and Python `KeyError` (from `del` on an absent dictionary key). -/
inductive S3Err : Type where
  | httpError (code : Nat)
  | keyError
deriving DecidableEq

/-- `_MultipartBuffer`: buffered payload (dropped by `forget_data`) plus
the MD5 checksum computed at buffering time. -/
structure MultipartBuffer : Type where
  data : Option Str
  md5sum : Str
deriving DecidableEq

/-- The `_MultipartBuffer(data)` constructor. -/
def mkBuffer (data : Str) : MultipartBuffer :=
  { data := some data, md5sum := md5hex data }

/-- `buffer.forget_data()` applied to the entry under key `p`. -/
def forgetData (l : List (Int × MultipartBuffer)) (p : Int) :
    List (Int × MultipartBuffer) :=
  l.map (fun e => if e.1 = p then (e.1, { e.2 with data := none }) else e)

/-- `_MultipartUploader`: destination path, file handle state (open flag
plus bytes written so far), next part to flush (`self.part_number`,
starting at 1), and the buffered-parts dictionary. -/
structure MultipartUploader : Type where
  path : Str
  fileOpen : Bool
  fileContent : Str
  part_number : Int
  buffers : List (Int × MultipartBuffer)
deriving DecidableEq

/-- `_MultipartUploader.__init__(upload_id, path)`: `open(path, "w")`
creates or truncates the destination file. -/
def initUploader (path : Str) : MultipartUploader :=
  { path := path, fileOpen := true, fileContent := [], part_number := 1,
    buffers := [] }

/-- The `while self.part_number in self.buffers` loop of
`trigger_write_completion`, with an explicit iteration bound.  Each
iteration appends the buffered bytes of part `part_number` to the file,
forgets them, and increments `part_number`. -/
def triggerAux : Nat → MultipartUploader → MultipartUploader
  | 0, u => u
  | fuel + 1, u =>
    match lookupKV u.buffers u.part_number with
    | some b =>
      triggerAux fuel
        { u with fileContent := u.fileContent ++ b.data.getD [],
                 buffers := forgetData u.buffers u.part_number,
                 part_number := u.part_number + 1 }
    | none => u

/-- `_MultipartUploader.trigger_write_completion`.  The loop consumes a
distinct buffered part number per iteration, so `buffers.length`
iterations always suffice (proved in `triggerAux_spec` below). -/
def trigger_write_completion (u : MultipartUploader) : MultipartUploader :=
  triggerAux u.buffers.length u

/-- `_MultipartUploader.write(part_number, data)`: reject a duplicate part
number with `HTTPError 400`, otherwise buffer the data and run the ordered
flush. -/
def MultipartUploader.write (u : MultipartUploader) (part_number : Int)
    (data : Str) : Except S3Err MultipartUploader :=
  if (lookupKV u.buffers part_number).isSome then
    .error (.httpError 400)
  else
    .ok (trigger_write_completion
      { u with buffers := u.buffers ++ [(part_number, mkBuffer data)] })

/-- The session-local part of `_MultipartUploader.close`: a final ordered
flush, then `self.file.flush(); self.file.close()`. -/
def MultipartUploader.closeFile (u : MultipartUploader) : MultipartUploader :=
  let u2 := trigger_write_completion u
  { u2 with fileOpen := false }

/-- `self.buffers[part_number].md5sum`: the ETag the handler returns for a
part (`ObjectHandler.put` line 265). -/
def etag (u : MultipartUploader) (p : Int) : Str :=
  ((lookupKV u.buffers p).map MultipartBuffer.md5sum).getD []

/-- The registry deregistration step shared by `close` and `abort`:
`del multipart_uploaders[upload_id]` under the registry lock.  Python
`del` raises `KeyError` when the key is absent. -/
def registryDel (reg : List (Str × MultipartUploader)) (upload_id : Str) :
    Except S3Err (List (Str × MultipartUploader)) :=
  if (lookupKV reg upload_id).isSome then .ok (eraseKV reg upload_id)
  else .error .keyError

/-! ## Server-level state and handler operations -/

/-- Process-wide state: the files on disk and the `multipart_uploaders`
registry. -/
structure ServerState : Type where
  fs : List (Str × Str)
  uploaders : List (Str × MultipartUploader)
deriving DecidableEq

/-- `MultipartUploaderFactory(upload_id, path)`: return the registered
uploader for `upload_id`, or `none` when absent and no path was supplied,
or create and register a fresh uploader (opening the destination file,
truncating existing content). -/
def factory (s : ServerState) (upload_id : Str) (path : Option Str) :
    ServerState × Option MultipartUploader :=
  match lookupKV s.uploaders upload_id with
  | some u => (s, some u)
  | none =>
    match path with
    | none => (s, none)
    | some p =>
      let u := initUploader p
      ({ fs := setKV s.fs p [], uploaders := s.uploaders ++ [(upload_id, u)] },
       some u)

/-- The multipart branch of `ObjectHandler.put` (lines 259-265): look up
the uploader (404 when the upload id is unknown), write the part, and
return the part checksum as the ETag header.  Bytes written through the
file handle land in the destination file on disk. -/
def writePartOp (s : ServerState) (upload_id : Str) (part_number : Int)
    (data : Str) : Except S3Err (ServerState × Str) :=
  match (factory s upload_id none).2 with
  | none => .error (.httpError 404)
  | some u =>
    match u.write part_number data with
    | .error e => .error e
    | .ok u2 =>
      .ok ({ fs := setKV s.fs u2.path u2.fileContent,
             uploaders := setKV s.uploaders upload_id u2 }, etag u2 part_number)

/-- The multipart branch of `ObjectHandler.post` (lines 312-331) together
with `_MultipartUploader.close`: final flush, close of the file handle,
deregistration, and the completion report listing
`(pn, buffers[pn].md5sum)` for `pn in range(1, part_number)`. -/
def completeOp (s : ServerState) (upload_id : Str) :
    Except S3Err (ServerState × List (Int × Str)) :=
  match (factory s upload_id none).2 with
  | none => .error (.httpError 404)
  | some u =>
    let u2 := u.closeFile
    match registryDel s.uploaders upload_id with
    | .error e => .error e
    | .ok reg =>
      let parts := (List.range (u2.part_number - 1).toNat).map
        (fun (n : Nat) => ((n : Int) + 1, etag u2 ((n : Int) + 1)))
      .ok ({ fs := setKV s.fs u2.path u2.fileContent, uploaders := reg }, parts)

/-- The multipart branch of `ObjectHandler.delete` (lines 290-300)
together with `_MultipartUploader.abort`: close the file handle, delete
the destination file (`os.unlink`), and deregister the upload id. -/
def abortOp (s : ServerState) (upload_id : Str) : Except S3Err ServerState :=
  match (factory s upload_id none).2 with
  | none => .error (.httpError 404)
  | some u =>
    match registryDel s.uploaders upload_id with
    | .error e => .error e
    | .ok reg => .ok { fs := eraseKV s.fs u.path, uploaders := reg }

/-! ## Write sequences and their specification

`runWrites path ops` plays a sequence of `write_part` calls against a
fresh upload session; a failed call raises before mutating any state, so
it leaves the session unchanged. -/

/-- Apply one `write` call, leaving the state unchanged when it raises. -/
def stepWrite (u : MultipartUploader) (op : Int × Str) : MultipartUploader :=
  match u.write op.1 op.2 with
  | .ok u2 => u2
  | .error _ => u

/-- The session after a sequence of `write_part` calls on a fresh upload. -/
def runWrites (path : Str) (ops : List (Int × Str)) : MultipartUploader :=
  ops.foldl stepWrite (initUploader path)

/-- Part number `p` was received by some call of the sequence. -/
def received (ops : List (Int × Str)) (p : Int) : Bool :=
  ops.any (fun o => o.1 == p)

/-- The data of the first call for part number `p` (junk when absent). -/
def firstData (ops : List (Int × Str)) (p : Int) : Str :=
  ((ops.find? (fun o => o.1 == p)).map Prod.snd).getD []

/-- The concatenation, in part-number order, of the data of parts
`1..k`. -/
def flushJoin (ops : List (Int × Str)) (k : Nat) : Str :=
  ((List.range k).map (fun (n : Nat) => firstData ops ((n : Int) + 1))).flatten

/-- `k` is the largest number such that every part `1..k` was received. -/
def goodK (ops : List (Int × Str)) (k : Nat) : Prop :=
  (∀ i : Nat, i < k → received ops ((i : Int) + 1) = true) ∧
    received ops ((k : Int) + 1) = false

instance goodKDec (ops : List (Int × Str)) (k : Nat) : Decidable (goodK ops k) :=
  inferInstanceAs (Decidable ((∀ i : Nat, i < k → received ops ((i : Int) + 1) = true) ∧
    received ops ((k : Int) + 1) = false))

/-! ## POSIX path functions (`os.path`)

`_object_path` and the handlers use `os.path.join`, `os.path.abspath` and
string slicing.  We embed the Python 2 `posixpath` semantics over `Str`. -/

/-- `p.split("/")` for the single-character separator. -/
def splitSlash (l : Str) : List Str :=
  l.foldr
    (fun c acc =>
      if c = '/' then [] :: acc
      else
        match acc with
        | s :: ss => (c :: s) :: ss
        | [] => [[c]])
    [[]]

/-- `"/".join(comps)`. -/
def joinSlash : List Str → Str
  | [] => []
  | [s] => s
  | s :: s2 :: ss => s ++ '/' :: joinSlash (s2 :: ss)

/-- The component loop of `posixpath.normpath`: drop empty and `.`
components, append normal ones, and let `..` pop the previous component
(kept when the path is relative with nothing to pop, or after a kept
`..`). -/
def normLoop (initialSlashes : Nat) : List Str → List Str → List Str
  | newComps, [] => newComps
  | newComps, comp :: rest =>
    if comp = [] ∨ comp = ['.'] then normLoop initialSlashes newComps rest
    else if ¬ comp = ['.', '.'] ∨ (initialSlashes = 0 ∧ newComps = []) ∨
        (¬ newComps = [] ∧ newComps.getLast? = some ['.', '.']) then
      normLoop initialSlashes (newComps ++ [comp]) rest
    else if ¬ newComps = [] then normLoop initialSlashes newComps.dropLast rest
    else normLoop initialSlashes newComps rest

/-- `posixpath.normpath` (Python 2): collapse separators and resolve `.`
and `..` components lexically, preserving the special `//` root. -/
def normpath (p : Str) : Str :=
  if p = [] then ['.']
  else
    let initialSlashes : Nat :=
      if p.take 1 = ['/'] then
        if p.take 2 = ['/', '/'] ∧ ¬ p.take 3 = ['/', '/', '/'] then 2 else 1
      else 0
    let newComps := normLoop initialSlashes [] (splitSlash p)
    let joined := List.replicate initialSlashes '/' ++ joinSlash newComps
    if joined = [] then ['.'] else joined

/-- Two-argument `posixpath.join`: an absolute second argument resets the
path, otherwise it is appended after a separator. -/
def pathJoin (a b : Str) : Str :=
  if b.take 1 = ['/'] then b
  else if a = [] ∨ a.getLast? = some '/' then a ++ b
  else a ++ '/' :: b

/-- `os.path.abspath`.  Every call site passes an absolute path (the
application directory is itself `os.path.abspath(root_directory)` and all
joins start from it), where `abspath` reduces to `normpath`. -/
def abspath (p : Str) : Str := normpath p

/-- `BaseRequestHandler._object_path(bucket, object_name)`: the resolved
destination for a key.  With `bucket_depth < 1` the joined path is
normalized by `abspath`; otherwise `bucket_depth` directory components,
the `2*(i+1)`-character prefixes of the key's MD5 hex digest, are inserted
between the bucket directory and the key, with no final normalization. -/
def objectPath (dir : Str) (depth : Nat) (bucket objectName : Str) : Str :=
  if depth < 1 then abspath (pathJoin (pathJoin dir bucket) objectName)
  else
    let hash := md5hex objectName
    let base := abspath (pathJoin dir bucket)
    let shardPath := (List.range depth).foldl
      (fun pth i => pathJoin pth (hash.take (2 * (i + 1)))) base
    pathJoin shardPath objectName

/-- The fixed-width shard-directory allowance of `BucketHandler.get`:
`2*(i+1) + 1` characters per shard level. -/
def shardSkip (depth : Nat) : Nat :=
  (List.range depth).foldl (fun sk i => sk + (2 * (i + 1) + 1)) 0

/-- `n[skip:]` in `BucketHandler.get`: recover the key from a discovered
path by dropping the bucket-directory length, a separator, and the shard
allowance. -/
def stripObjectName (bucketPath : Str) (depth : Nat) (fullPath : Str) : Str :=
  fullPath.drop (bucketPath.length + 1 + shardSkip depth)

/-- The path checks of `ObjectHandler.put` (lines 244-253) up to the
point where the handler starts writing: 404 when the bucket directory
fails its own containment check or is not a directory, 403 when the
resolved object path does not start with the bucket directory string or
is a directory; otherwise the write proceeds at the returned path. -/
def putResolve (isdir : Str → Bool) (dir : Str) (depth : Nat)
    (bucket objectName : Str) : Except S3Err Str :=
  if ¬ (dir.isPrefixOf (abspath (pathJoin dir bucket))) ∨
      ¬ isdir (abspath (pathJoin dir bucket)) then
    .error (.httpError 404)
  else if ¬ ((abspath (pathJoin dir bucket)).isPrefixOf
        (objectPath dir depth bucket objectName)) ∨
      isdir (objectPath dir depth bucket objectName) then
    .error (.httpError 403)
  else .ok (objectPath dir depth bucket objectName)

/-- Following the claim's words (not the code): `child` is a descendant of
the directory `parent` when, after normalization, it equals `parent` or
lies strictly below it. -/
def isDescendantB (parent child : Str) : Bool :=
  (normpath child == normpath parent) ||
    (normpath parent ++ ['/']).isPrefixOf (normpath child)

/-- A path component that survives normalization unchanged: nonempty and
neither `.` nor `..`. -/
def normalComp (c : Str) : Bool :=
  decide (¬ (c = [] ∨ c = ['.'] ∨ c = ['.', '.']))

/-- All separator-split components of the string are normal. -/
def compsOK (s : Str) : Prop := ∀ c ∈ splitSlash s, normalComp c = true

/-- An absolute, normalized directory string: a leading `/` followed by
normal components. -/
def absOK (dir : Str) : Prop := dir.take 1 = ['/'] ∧ compsOK (dir.drop 1)

instance compsOKDec (s : Str) : Decidable (compsOK s) :=
  inferInstanceAs (Decidable (∀ c ∈ splitSlash s, normalComp c = true))

instance absOKDec (dir : Str) : Decidable (absOK dir) :=
  inferInstanceAs (Decidable (dir.take 1 = ['/'] ∧ compsOK (dir.drop 1)))

/-! ## Bucket listing (`BucketHandler.get`)

Key order is Python 2 byte-wise string comparison; `object_names.sort()`
is modelled by insertion sort with that order, and `bisect.bisect_right`
and `bisect.bisect_left` by binary search with an explicit iteration
bound. -/

/-- Python 2 `str` less-than: byte-wise lexicographic comparison. -/
def strLt : Str → Str → Bool
  | _, [] => false
  | [], _ :: _ => true
  | a :: xs, b :: ys =>
    if a.toNat < b.toNat then true
    else if b.toNat < a.toNat then false
    else strLt xs ys

/-- Python 2 `str` less-or-equal. -/
def strLe (a b : Str) : Bool := ! strLt b a

/-- `strLe` as a relation, for sortedness statements. -/
def strLeP (a b : Str) : Prop := strLe a b = true

instance strLePDec : DecidableRel strLeP :=
  fun a b => instDecidableEqBool (strLe a b) true

/-- `object_names.sort()`: stable comparison sort by `strLe`. -/
def sortStr (l : List Str) : List Str := List.insertionSort strLeP l

/-- The `while lo < hi` loop of `bisect.bisect_right(a, x, lo, hi)`, with
an explicit iteration bound (`hi - lo` shrinks every iteration). -/
def bisectRightAux (a : List Str) (x : Str) : Nat → Nat → Nat → Nat
  | 0, lo, _ => lo
  | fuel + 1, lo, hi =>
    if lo < hi then
      let mid := (lo + hi) / 2
      if strLt x (a.getD mid []) then bisectRightAux a x fuel lo mid
      else bisectRightAux a x fuel (mid + 1) hi
    else lo

/-- `bisect.bisect_right(a, x, lo)`. -/
def bisect_right (a : List Str) (x : Str) (lo : Nat) : Nat :=
  bisectRightAux a x a.length lo a.length

/-- The `while lo < hi` loop of `bisect.bisect_left(a, x, lo, hi)`. -/
def bisectLeftAux (a : List Str) (x : Str) : Nat → Nat → Nat → Nat
  | 0, lo, _ => lo
  | fuel + 1, lo, hi =>
    if lo < hi then
      let mid := (lo + hi) / 2
      if strLt (a.getD mid []) x then bisectLeftAux a x fuel (mid + 1) hi
      else bisectLeftAux a x fuel lo mid
    else lo

/-- `bisect.bisect_left(a, x, lo)`. -/
def bisect_left (a : List Str) (x : Str) (lo : Nat) : Nat :=
  bisectLeftAux a x a.length lo a.length

/-- The start-position computation of `BucketHandler.get` (lines
165-169): `bisect_right` past the marker when a marker was supplied, then
`bisect_left` to the prefix when a prefix was supplied. -/
def startPos (names : List Str) (pfx marker : Str) : Nat :=
  let sp1 : Nat := if marker = [] then 0 else bisect_right names marker 0
  if pfx = [] then sp1 else bisect_left names pfx sp1

/-- The collection loop of `BucketHandler.get` (lines 171-188): stop with
`truncated = false` at the first key that does not start with the prefix,
stop with `truncated = true` once `max_keys` keys were collected and
another matching key arrives; the running `marker` becomes the last
collected key. -/
def listLoop (pfx : Str) (max_keys : Int) :
    List Str → List Str → Str → List Str × Str × Bool
  | [], contents, marker => (contents, marker, false)
  | name :: rest, contents, marker =>
    if ¬ pfx.isPrefixOf name then (contents, marker, false)
    else if max_keys ≤ (contents.length : Int) then (contents, marker, true)
    else listLoop pfx max_keys rest (contents ++ [name]) name

/-- The listing core of `BucketHandler.get`, from the recovered key
multiset: sort, locate the start position, and run the collection loop.
Returns the collected keys, the reported marker, and the truncation
flag. -/
def listKeys (object_names : List Str) (pfx marker : Str) (max_keys : Int) :
    List Str × Str × Bool :=
  let names := sortStr object_names
  listLoop pfx max_keys (names.drop (startPos names pfx marker)) [] marker

/-! ## Lemmas about the buffered-parts dictionary -/

theorem lookupKV_append {α β : Type} [DecidableEq α] (l1 l2 : List (α × β))
    (k : α) : lookupKV (l1 ++ l2) k = (lookupKV l1 k).or (lookupKV l2 k) := by
  induction l1 with
  | nil => simp [lookupKV]
  | cons e rest ih =>
    simp only [List.cons_append, lookupKV]
    by_cases h : e.1 = k <;> simp [h, ih]

theorem lookupKV_forget (l : List (Int × MultipartBuffer)) (p q : Int) :
    lookupKV (forgetData l p) q =
      if q = p then (lookupKV l q).map (fun b => { b with data := none })
      else lookupKV l q := by
  induction l with
  | nil => simp [forgetData]
  | cons e rest ih =>
    simp only [forgetData, List.map_cons] at ih ⊢
    by_cases h : e.1 = p
    · rw [if_pos h]
      by_cases hq : q = p
      · have he : e.1 = q := h.trans hq.symm
        simp [he, hq]
      · have he : ¬ e.1 = q := fun hc => hq (hc.symm.trans h)
        simp [he, hq, ih]
    · rw [if_neg h]
      by_cases he : e.1 = q
      · have hq : ¬ q = p := fun hc => h (he.trans hc)
        simp [he, hq]
      · simp [he, ih]

theorem lookupKV_isSome_mem {α β : Type} [DecidableEq α]
    (l : List (α × β)) (k : α) (h : (lookupKV l k).isSome = true) :
    k ∈ l.map Prod.fst := by
  induction l with
  | nil => simp [lookupKV] at h
  | cons e rest ih =>
    simp only [lookupKV] at h
    by_cases he : e.1 = k
    · simp [he.symm]
    · simp [he] at h
      simp [ih h]

theorem lookupKV_eraseKV_self {α β : Type} [DecidableEq α]
    (l : List (α × β)) (k : α) : lookupKV (eraseKV l k) k = none := by
  induction l with
  | nil => simp [eraseKV, lookupKV]
  | cons e rest ih =>
    simp only [eraseKV, List.filter_cons] at ih ⊢
    by_cases h : e.1 = k
    · simpa [h] using ih
    · simpa [h] using ih

/-- The number of distinct buffered consecutive part numbers starting at
`c` is bounded by the size of the dictionary. -/
theorem run_le_length (l : List (Int × MultipartBuffer)) (c : Int) (m : Nat)
    (h : ∀ j : Nat, j < m → (lookupKV l (c + (j : Int))).isSome = true) :
    m ≤ l.length := by
  have hmem : ∀ j : Nat, j < m → c + (j : Int) ∈ l.map Prod.fst := by
    intro j hj
    exact lookupKV_isSome_mem _ _ (h j hj)
  have hcard : (Finset.range m).card ≤ (l.map Prod.fst).toFinset.card := by
    refine Finset.card_le_card_of_injOn (fun j => c + (j : Int)) ?_ ?_
    · intro j hj
      rw [List.mem_toFinset]
      exact hmem j (Finset.mem_range.mp hj)
    · intro a _ b _ hab
      simp only at hab
      omega
  calc m = (Finset.range m).card := (Finset.card_range m).symm
    _ ≤ (l.map Prod.fst).toFinset.card := hcard
    _ ≤ (l.map Prod.fst).length := (l.map Prod.fst).toFinset_card_le
    _ = l.length := List.length_map _ _

/-! ## The ordered-flush specification -/

/-- The shape of a buffered part under the ordered-flush discipline: parts
strictly below the flush cursor `c` have had their bytes forgotten, parts
at or beyond it (and parts with non-positive numbers) still hold them; the
checksum is always retained. -/
def bufAt (D : Int → Str) (c p : Int) : MultipartBuffer :=
  { data := if 1 ≤ p ∧ p < c then none else some (D p),
    md5sum := md5hex (D p) }

/-- The buffered-parts dictionary holds exactly the received part numbers
`R`, each with original data `D` and the `bufAt` shape relative to the
current flush cursor. -/
def Shaped (R : Int → Bool) (D : Int → Str) (u : MultipartUploader) : Prop :=
  ∀ p : Int, lookupKV u.buffers p =
    if R p then some (bufAt D u.part_number p) else none

theorem triggerAux_spec (R : Int → Bool) (D : Int → Str) :
    ∀ (fuel : Nat) (u : MultipartUploader), 1 ≤ u.part_number →
      Shaped R D u →
      (∀ m : Nat, (∀ j : Nat, j < m → R (u.part_number + (j : Int)) = true) →
        m ≤ fuel) →
      ∃ m : Nat,
        (∀ j : Nat, j < m → R (u.part_number + (j : Int)) = true) ∧
        R (u.part_number + (m : Int)) = false ∧
        (triggerAux fuel u).part_number = u.part_number + (m : Int) ∧
        (triggerAux fuel u).fileContent = u.fileContent ++
          ((List.range m).map (fun (j : Nat) => D (u.part_number + (j : Int)))).flatten ∧
        (triggerAux fuel u).path = u.path ∧
        (triggerAux fuel u).fileOpen = u.fileOpen ∧
        Shaped R D (triggerAux fuel u) := by
  intro fuel
  induction fuel with
  | zero =>
    intro u hc hsh hfuel
    have hR : R u.part_number = false := by
      by_contra hR
      have h1 : ∀ j : Nat, j < 1 → R (u.part_number + (j : Int)) = true := by
        intro j hj
        interval_cases j
        simpa using Bool.of_not_eq_false hR
      exact absurd (hfuel 1 h1) (by omega)
    exact ⟨0, by simp, by simpa using hR, by simp [triggerAux],
      by simp [triggerAux], rfl, rfl, hsh⟩
  | succ fuel ih =>
    intro u hc hsh hfuel
    cases hl : lookupKV u.buffers u.part_number with
    | none =>
      have hR : R u.part_number = false := by
        by_contra hR
        rw [hsh u.part_number, Bool.of_not_eq_false hR] at hl
        simp at hl
      refine ⟨0, by simp, by simpa using hR, ?_, ?_, ?_, ?_, ?_⟩ <;>
        simp [triggerAux, hl, hsh]
    | some b =>
      have hR : R u.part_number = true := by
        by_contra hR
        rw [hsh u.part_number, Bool.eq_false_iff.mpr hR] at hl
        simp at hl
      have hb : b = bufAt D u.part_number u.part_number := by
        have := hsh u.part_number
        rw [hR, hl] at this
        simpa using this
      have hbdata : b.data = some (D u.part_number) := by
        rw [hb, bufAt]
        simp
      set u1 : MultipartUploader :=
        { u with fileContent := u.fileContent ++ b.data.getD [],
                 buffers := forgetData u.buffers u.part_number,
                 part_number := u.part_number + 1 } with hu1
      have hstep : triggerAux (fuel + 1) u = triggerAux fuel u1 := by
        simp [triggerAux, hl]
      have hsh1 : Shaped R D u1 := by
        intro p
        show lookupKV (forgetData u.buffers u.part_number) p =
          if R p then some (bufAt D (u.part_number + 1) p) else none
        rw [lookupKV_forget]
        by_cases hp : p = u.part_number
        · rw [if_pos hp, hp, hl, hR]
          simp only [Option.map_some, if_true, hb, bufAt]
          have h1 : 1 ≤ u.part_number ∧ u.part_number < u.part_number + 1 :=
            ⟨hc, by omega⟩
          simp [h1, lt_irrefl]
        · rw [if_neg hp, hsh p]
          by_cases hr : R p
          · rw [hr]
            simp only [if_true]
            have heq : (1 ≤ p ∧ p < u.part_number + 1) ↔ (1 ≤ p ∧ p < u.part_number) := by
              constructor <;> intro h2 <;> exact ⟨h2.1, by omega⟩
            rw [bufAt, bufAt, if_congr heq rfl rfl]
          · rw [if_neg hr, if_neg hr]
      have hc1 : 1 ≤ u1.part_number := by
        show 1 ≤ u.part_number + 1
        omega
      have hfuel1 : ∀ m : Nat,
          (∀ j : Nat, j < m → R (u1.part_number + (j : Int)) = true) → m ≤ fuel := by
        intro m hm
        have hm1 : ∀ j : Nat, j < m + 1 → R (u.part_number + (j : Int)) = true := by
          intro j hj
          cases j with
          | zero => simpa using hR
          | succ j =>
            have h2 := hm j (by omega)
            have harg : u.part_number + ((j + 1 : Nat) : Int) = u1.part_number + (j : Int) := by
              show _ = u.part_number + 1 + (j : Int)
              push_cast
              ring
            rw [harg]
            exact h2
        have := hfuel (m + 1) hm1
        omega
      obtain ⟨m, hrun, hstop, hpn, hfc, hpath, hopen, hshf⟩ := ih u1 hc1 hsh1 hfuel1
      refine ⟨m + 1, ?_, ?_, ?_, ?_, ?_, ?_, ?_⟩
      · intro j hj
        cases j with
        | zero => simpa using hR
        | succ j =>
          have h2 := hrun j (by omega)
          have harg : u.part_number + ((j + 1 : Nat) : Int) = u1.part_number + (j : Int) := by
            show _ = u.part_number + 1 + (j : Int)
            push_cast
            ring
          rw [harg]
          exact h2
      · have harg : u.part_number + ((m + 1 : Nat) : Int) = u1.part_number + (m : Int) := by
          show _ = u.part_number + 1 + (m : Int)
          push_cast
          ring
        rw [harg]
        exact hstop
      · rw [hstep, hpn]
        show u.part_number + 1 + (m : Int) = _
        push_cast
        ring
      · rw [hstep, hfc]
        have hrhs : ((List.range (m + 1)).map
              (fun (j : Nat) => D (u.part_number + (j : Int)))).flatten =
            D u.part_number ++ ((List.range m).map
              (fun (j : Nat) => D (u.part_number + 1 + (j : Int)))).flatten := by
          rw [List.range_succ_eq_map]
          simp only [List.map_cons, List.map_map, List.flatten_cons]
          congr 1
          · simp
          · congr 1
            apply List.map_congr_left
            intro j _
            show D (u.part_number + ((j + 1 : Nat) : Int)) = D (u.part_number + 1 + (j : Int))
            congr 1
            push_cast
            ring
        show (u.fileContent ++ b.data.getD []) ++
            ((List.range m).map (fun (j : Nat) => D (u.part_number + 1 + (j : Int)))).flatten =
          u.fileContent ++ ((List.range (m + 1)).map
            (fun (j : Nat) => D (u.part_number + (j : Int)))).flatten
        rw [hbdata, hrhs]
        simp only [Option.getD_some]
        rw [List.append_assoc]
      · rw [hstep, hpath]
      · rw [hstep, hopen]
      · rw [hstep]
        exact hshf

/-! ## Facts about `received` and `firstData` -/

theorem received_append (ops : List (Int × Str)) (op : Int × Str) (q : Int) :
    received (ops ++ [op]) q = (received ops q || (op.1 == q)) := by
  simp [received, List.any_append]

theorem find_eq_none_of_not_received (ops : List (Int × Str)) (q : Int)
    (h : received ops q = false) : ops.find? (fun o => o.1 == q) = none := by
  rw [List.find?_eq_none]
  intro x hx hpx
  have hr : received ops q = true := by
    rw [received, List.any_eq_true]
    exact ⟨x, hx, hpx⟩
  rw [hr] at h
  cases h

theorem find_isSome_of_received (ops : List (Int × Str)) (q : Int)
    (h : received ops q = true) : (ops.find? (fun o => o.1 == q)).isSome = true := by
  rw [received, List.any_eq_true] at h
  rw [List.find?_isSome]
  exact h

theorem firstData_append_of_received (ops l2 : List (Int × Str)) (q : Int)
    (h : received ops q = true) : firstData (ops ++ l2) q = firstData ops q := by
  rw [firstData, firstData, List.find?_append]
  obtain ⟨o, ho⟩ := Option.isSome_iff_exists.mp (find_isSome_of_received ops q h)
  rw [ho]
  rfl

theorem firstData_append_new (ops : List (Int × Str)) (p : Int) (d : Str)
    (h : received ops p = false) : firstData (ops ++ [(p, d)]) p = d := by
  rw [firstData, List.find?_append, find_eq_none_of_not_received ops p h]
  simp [List.find?]

theorem received_middle (l1 l2 : List (Int × Str)) (p : Int) (d : Str) (q : Int)
    (hne : ¬ p = q) : received (l1 ++ (p, d) :: l2) q = received (l1 ++ l2) q := by
  have hb : (p == q) = false := by simpa using hne
  simp [received, List.any_append, List.any_cons, hb]

theorem firstData_middle (l1 l2 : List (Int × Str)) (p : Int) (d : Str) (q : Int)
    (hne : ¬ p = q) : firstData (l1 ++ (p, d) :: l2) q = firstData (l1 ++ l2) q := by
  rw [firstData, firstData, List.find?_append, List.find?_append]
  congr 1
  rw [List.find?_cons]
  have : ((p, d).1 == q) = false := by simpa using hne
  rw [this]

theorem flushJoin_congr (ops1 ops2 : List (Int × Str)) (k : Nat)
    (h : ∀ i : Nat, i < k → firstData ops1 ((i : Int) + 1) = firstData ops2 ((i : Int) + 1)) :
    flushJoin ops1 k = flushJoin ops2 k := by
  rw [flushJoin, flushJoin]
  congr 1
  apply List.map_congr_left
  intro j hj
  exact h j (List.mem_range.mp hj)

theorem goodK_unique (ops : List (Int × Str)) (k1 k2 : Nat)
    (h1 : goodK ops k1) (h2 : goodK ops k2) : k1 = k2 := by
  by_contra hne
  rcases Nat.lt_or_ge k1 k2 with h | h
  · have := h2.1 k1 h
    rw [h1.2] at this
    cases this
  · have hlt : k2 < k1 := by omega
    have := h1.1 k2 hlt
    rw [h2.2] at this
    cases this

/-! ## The reachability invariant of an upload session -/

/-- Invariant of a session after any sequence of `write_part` calls: the
flush cursor sits one past the largest contiguous received prefix `k`, the
file holds the concatenation of parts `1..k`, and the buffered-parts
dictionary is `Shaped` by the received set and the first-received data. -/
def Inv (ops : List (Int × Str)) (u : MultipartUploader) : Prop :=
  ∃ k : Nat, goodK ops k ∧
    u.part_number = (k : Int) + 1 ∧
    u.fileContent = flushJoin ops k ∧
    Shaped (received ops) (firstData ops) u

theorem inv_nil (path : Str) : Inv [] (initUploader path) := by
  refine ⟨0, ⟨?_, ?_⟩, rfl, rfl, ?_⟩
  · intro i hi
    cases hi
  · rfl
  · intro p
    rfl

theorem inv_step (ops : List (Int × Str)) (u : MultipartUploader) (op : Int × Str)
    (h : Inv ops u) : Inv (ops ++ [op]) (stepWrite u op) := by
  obtain ⟨k, hgood, hpn, hfc, hsh⟩ := h
  obtain ⟨p, d⟩ := op
  show Inv (ops ++ [(p, d)]) (stepWrite u (p, d))
  by_cases hrec : received ops p = true
  · -- duplicate part: the write raises and the state is unchanged
    have hlook : (lookupKV u.buffers p).isSome := by
      rw [hsh p, hrec]
      simp
    have hstep : stepWrite u (p, d) = u := by
      rw [stepWrite, MultipartUploader.write, if_pos hlook]
    rw [hstep]
    refine ⟨k, ⟨?_, ?_⟩, hpn, ?_, ?_⟩
    · intro i hi
      rw [received_append, hgood.1 i hi]
      simp
    · rw [received_append, hgood.2]
      simp only [Bool.false_or]
      have hne : ¬ p = (k : Int) + 1 := by
        intro he
        rw [he, hgood.2] at hrec
        cases hrec
      simpa using hne
    · rw [hfc]
      apply flushJoin_congr
      intro i hi
      exact (firstData_append_of_received _ _ _ (hgood.1 i hi)).symm
    · intro q
      rw [hsh q]
      have hreq : received (ops ++ [(p, d)]) q = received ops q := by
        rw [received_append]
        by_cases hp : p = q
        · rw [show ((p, d).1 == q) = true by simpa using hp, ← hp, hrec]
          simp
        · rw [show ((p, d).1 == q) = false by simpa using hp, Bool.or_false]
      rw [hreq]
      by_cases hr : received ops q = true
      · rw [hr]
        simp only [if_true]
        rw [bufAt, bufAt, firstData_append_of_received _ _ _ hr]
      · rw [Bool.eq_false_iff.mpr hr]
        simp
  · -- fresh part: buffer it and run the ordered flush
    have hrecf : received ops p = false := Bool.eq_false_iff.mpr hrec
    have hlook : lookupKV u.buffers p = none := by
      rw [hsh p, hrecf]
      simp
    set u1 : MultipartUploader :=
      { u with buffers := u.buffers ++ [(p, mkBuffer d)] } with hu1
    have hstep : stepWrite u (p, d) = trigger_write_completion u1 := by
      rw [stepWrite, MultipartUploader.write, if_neg (by rw [hlook]; simp)]
    have hone : 1 ≤ u.part_number := by
      rw [hpn]
      omega
    have hsh1 : Shaped (received (ops ++ [(p, d)])) (firstData (ops ++ [(p, d)])) u1 := by
      intro q
      show lookupKV (u.buffers ++ [(p, mkBuffer d)]) q =
        if received (ops ++ [(p, d)]) q
        then some (bufAt (firstData (ops ++ [(p, d)])) u.part_number q) else none
      rw [lookupKV_append, hsh q]
      by_cases hq : p = q
      · subst hq
        have hrcv : received (ops ++ [(p, d)]) p = true := by
          rw [received_append, hrecf]
          simp
        have hfd : firstData (ops ++ [(p, d)]) p = d :=
          firstData_append_new _ _ _ hrecf
        have hnot : ¬ (1 ≤ p ∧ p < u.part_number) := by
          rw [hpn]
          rintro ⟨h1, h2⟩
          have hi : ((p.toNat - 1 : Nat) : Int) + 1 = p := by omega
          have hik : p.toNat - 1 < k := by omega
          have hr := hgood.1 _ hik
          rw [hi] at hr
          rw [hr] at hrecf
          cases hrecf
        rw [hrecf, hrcv]
        simp [mkBuffer, bufAt, hfd, hnot]
      · have hbeq : ((p, d).1 == q) = false := by simpa using hq
        rw [received_append, hbeq, Bool.or_false]
        by_cases hr : received ops q = true
        · rw [hr]
          show (some (bufAt (firstData ops) u.part_number q)).or _ =
            some (bufAt (firstData (ops ++ [(p, d)])) u.part_number q)
          rw [Option.or, bufAt, bufAt, firstData_append_of_received _ _ _ hr]
        · rw [Bool.eq_false_iff.mpr hr]
          show (Option.none.or (lookupKV [(p, mkBuffer d)] q)) = none
          rw [Option.or, lookupKV_cons, if_neg hq]
          rfl
    have hc1 : 1 ≤ u1.part_number := hone
    have hfuel1 : ∀ m : Nat,
        (∀ j : Nat, j < m →
          received (ops ++ [(p, d)]) (u1.part_number + (j : Int)) = true) →
        m ≤ u1.buffers.length := by
      intro m hm
      apply run_le_length u1.buffers u1.part_number
      intro j hj
      rw [hsh1 (u1.part_number + (j : Int)), hm j hj]
      simp
    obtain ⟨m, hrun, hstop, hpn2, hfc2, hpath2, hopen2, hsh2⟩ :=
      triggerAux_spec (received (ops ++ [(p, d)])) (firstData (ops ++ [(p, d)]))
        u1.buffers.length u1 hc1 hsh1 hfuel1
    rw [hstep, trigger_write_completion]
    have hcur : u1.part_number = (k : Int) + 1 := hpn
    refine ⟨k + m, ⟨?_, ?_⟩, ?_, ?_, hsh2⟩
    · intro i hi
      by_cases hik : i < k
      · rw [received_append, hgood.1 i hik]
        simp
      · have hk : k ≤ i := by omega
        have harg : u1.part_number + ((i - k : Nat) : Int) = (i : Int) + 1 := by
          rw [hcur]
          have hik2 : ((i - k : Nat) : Int) = (i : Int) - (k : Int) := by
            push_cast [hk]
            ring
          rw [hik2]
          ring
        have h2 := hrun (i - k) (by omega)
        rw [harg] at h2
        exact h2
    · have harg : u1.part_number + ((m : Nat) : Int) = ((k + m : Nat) : Int) + 1 := by
        rw [hcur]
        push_cast
        ring
      rw [harg] at hstop
      exact hstop
    · rw [hpn2, hcur]
      push_cast
      ring
    · rw [hfc2]
      have hu1fc : u1.fileContent = flushJoin (ops ++ [(p, d)]) k := by
        show u.fileContent = _
        rw [hfc]
        apply flushJoin_congr
        intro i hi
        exact (firstData_append_of_received _ _ _ (hgood.1 i hi)).symm
      rw [hu1fc]
      rw [flushJoin, flushJoin, List.range_add, List.map_append, List.flatten_append]
      congr 1
      rw [List.map_map]
      congr 1
      apply List.map_congr_left
      intro j hj
      show firstData (ops ++ [(p, d)]) (u1.part_number + (j : Int)) =
        firstData (ops ++ [(p, d)]) (((k + j : Nat) : Int) + 1)
      congr 1
      rw [hcur]
      push_cast
      ring

theorem inv_runWrites (path : Str) (ops : List (Int × Str)) :
    Inv ops (runWrites path ops) := by
  induction ops using List.reverseRecOn with
  | nil => exact inv_nil path
  | append_singleton ops op ih =>
    have : runWrites path (ops ++ [op]) = stepWrite (runWrites path ops) op := by
      rw [runWrites, runWrites, List.foldl_append, List.foldl_cons, List.foldl_nil]
    rw [this]
    exact inv_step ops _ op ih

/-- On a quiescent session (one satisfying the invariant) the ordered
flush is a no-op: the part at the cursor has not been received. -/
theorem trigger_of_inv (ops : List (Int × Str)) (u : MultipartUploader)
    (h : Inv ops u) : trigger_write_completion u = u := by
  obtain ⟨k, hgood, hpn, hfc, hsh⟩ := h
  have hlook : lookupKV u.buffers u.part_number = none := by
    rw [hsh u.part_number, hpn, hgood.2]
    simp
  rw [trigger_write_completion]
  cases hlen : u.buffers.length with
  | zero => rfl
  | succ n =>
    show triggerAux (n + 1) u = u
    rw [triggerAux, hlook]

theorem triggerAux_preserves (fuel : Nat) : ∀ u : MultipartUploader,
    (triggerAux fuel u).path = u.path ∧ (triggerAux fuel u).fileOpen = u.fileOpen := by
  induction fuel with
  | zero => exact fun u => ⟨rfl, rfl⟩
  | succ fuel ih =>
    intro u
    cases hl : lookupKV u.buffers u.part_number with
    | none =>
      rw [triggerAux, hl]
      exact ⟨rfl, rfl⟩
    | some b =>
      rw [triggerAux, hl]
      exact ⟨(ih _).1, (ih _).2⟩

theorem write_ok_preserves (u u2 : MultipartUploader) (p : Int) (d : Str)
    (h : u.write p d = .ok u2) : u2.path = u.path ∧ u2.fileOpen = u.fileOpen := by
  rw [MultipartUploader.write] at h
  by_cases hl : (lookupKV u.buffers p).isSome
  · rw [if_pos hl] at h
    cases h
  · rw [if_neg hl] at h
    injection h with h
    rw [← h, trigger_write_completion]
    exact ⟨(triggerAux_preserves _ _).1, (triggerAux_preserves _ _).2⟩

theorem runWrites_path (path : Str) (ops : List (Int × Str)) :
    (runWrites path ops).path = path ∧ (runWrites path ops).fileOpen = true := by
  induction ops using List.reverseRecOn with
  | nil => exact ⟨rfl, rfl⟩
  | append_singleton ops op ih =>
    have hr : runWrites path (ops ++ [op]) = stepWrite (runWrites path ops) op := by
      rw [runWrites, runWrites, List.foldl_append, List.foldl_cons, List.foldl_nil]
    rw [hr, stepWrite]
    cases hw : (runWrites path ops).write op.1 op.2 with
    | error e => exact ih
    | ok u2 =>
      obtain ⟨h1, h2⟩ := write_ok_preserves _ _ _ _ hw
      exact ⟨h1.trans ih.1, h2.trans ih.2⟩

/-- A successful fresh write extends the run: the state after it is the
state of the extended operation sequence. -/
theorem runWrites_snoc (path : Str) (ops : List (Int × Str)) (op : Int × Str) :
    runWrites path (ops ++ [op]) = stepWrite (runWrites path ops) op := by
  rw [runWrites, runWrites, List.foldl_append, List.foldl_cons, List.foldl_nil]

/-! ## Claims about the upload session -/

/-- C1: after any sequence of successful `write_part` calls, in any
arrival order, the destination file holds exactly the concatenation of
parts `1..k` in part-number order, where `k` is the largest number such
that every part `1..k` was received; the flush cursor sits at `k + 1`,
and every received part beyond `k` is still buffered, unwritten, with its
data intact. -/
theorem write_part_ordered_flush (path : Str) (ops : List (Int × Str)) (k : Nat)
    (hk : goodK ops k) :
    (runWrites path ops).fileContent = flushJoin ops k ∧
    (runWrites path ops).part_number = (k : Int) + 1 ∧
    (∀ p : Int, (k : Int) < p → received ops p = true →
      lookupKV (runWrites path ops).buffers p =
        some { data := some (firstData ops p), md5sum := md5hex (firstData ops p) }) := by
  obtain ⟨k2, hg2, hpn, hfc, hsh⟩ := inv_runWrites path ops
  obtain rfl : k2 = k := goodK_unique ops k2 k hg2 hk
  refine ⟨hfc, hpn, ?_⟩
  intro p hp hr
  rw [hsh p, hr]
  simp only [if_true]
  rw [bufAt]
  have hnot : ¬ (1 ≤ p ∧ p < (runWrites path ops).part_number) := by
    rw [hpn]
    rintro ⟨h1, h2⟩
    omega
  rw [if_neg hnot]

/-- Witness for C1: parts 2, 1, 4 arriving in that order give file
content `A ++ B`, with part 4 buffered beyond the gap at 3. -/
theorem write_part_ordered_flush_witness :
    goodK [((2 : Int), ("B".data)), (1, ("A".data)), (4, ("D".data))] 2 ∧
    (runWrites [] [((2 : Int), ("B".data)), (1, ("A".data)), (4, ("D".data))]).fileContent
      = ("AB".data) ∧
    (runWrites [] [((2 : Int), ("B".data)), (1, ("A".data)), (4, ("D".data))]).part_number = 3 := by
  refine ⟨by decide, ?_, ?_⟩
  · exact ((write_part_ordered_flush [] [((2 : Int), ("B".data)), (1, ("A".data)),
      (4, ("D".data))] 2 (by decide)).1).trans (by decide)
  · exact ((write_part_ordered_flush [] [((2 : Int), ("B".data)), (1, ("A".data)),
      (4, ("D".data))] 2 (by decide)).2.1).trans (by decide)

/-- C4: a `write_part` for an already-received part number (still
buffered or already flushed) raises `HTTPError 400` without changing the
session, while a first `write_part` succeeds and the ETag surfaced for
the part is the MD5 checksum of its data. -/
theorem write_part_duplicate_rejected (path : Str) (ops : List (Int × Str))
    (p : Int) (d : Str) :
    (received ops p = true →
      (runWrites path ops).write p d = .error (.httpError 400)) ∧
    (received ops p = false →
      ∃ u2, (runWrites path ops).write p d = .ok u2 ∧ etag u2 p = md5hex d) := by
  obtain ⟨k, hg, hpn, hfc, hsh⟩ := inv_runWrites path ops
  constructor
  · intro hr
    rw [MultipartUploader.write, if_pos (by rw [hsh p, hr]; simp)]
  · intro hr
    have hlook : ¬ (lookupKV (runWrites path ops).buffers p).isSome := by
      rw [hsh p, hr]
      simp
    refine ⟨runWrites path (ops ++ [(p, d)]), ?_, ?_⟩
    · have hstep : runWrites path (ops ++ [(p, d)]) =
          match (runWrites path ops).write p d with
          | .ok u3 => u3
          | .error _ => runWrites path ops := runWrites_snoc path ops (p, d)
      cases hw : (runWrites path ops).write p d with
      | error e =>
        rw [MultipartUploader.write, if_neg hlook] at hw
        cases hw
      | ok u2 =>
        rw [hw] at hstep
        have hu2 : runWrites path (ops ++ [(p, d)]) = u2 := hstep
        rw [hu2]
    · obtain ⟨k2, hg2, hpn2, hfc2, hsh2⟩ := inv_runWrites path (ops ++ [(p, d)])
      have hrcv : received (ops ++ [(p, d)]) p = true := by
        rw [received_append]
        simp
      rw [etag, hsh2 p, hrcv]
      simp only [if_true, Option.map_some, Option.getD_some]
      rw [bufAt]
      show md5hex (firstData (ops ++ [(p, d)]) p) = md5hex d
      rw [firstData_append_new _ _ _ hr]

/-- Witness for C4: a repeat of part 1 is rejected with a 400 error, a
fresh part 2 succeeds and reports the content checksum. -/
theorem write_part_duplicate_rejected_witness :
    ((runWrites [] [((1 : Int), ("A".data))]).write 1 ("X".data) =
      .error (.httpError 400)) ∧
    (∃ u2, (runWrites [] [((1 : Int), ("A".data))]).write 2 ("C".data) = .ok u2 ∧
      etag u2 2 = md5hex ("C".data)) :=
  ⟨(write_part_duplicate_rejected [] [((1 : Int), ("A".data))] 1 ("X".data)).1 (by decide),
   (write_part_duplicate_rejected [] [((1 : Int), ("A".data))] 2 ("C".data)).2 (by decide)⟩

/-- C10: a first `write_part` with a non-positive part number succeeds,
buffers the data and reports its checksum, yet its bytes never reach the
destination file: the file content is unchanged by the call, stays equal
to the run without that call under any later writes, and a final flush
(as run by `complete`) adds nothing. -/
theorem write_part_nonpositive_accepted_never_flushed (path : Str)
    (ops ops2 : List (Int × Str)) (p : Int) (d : Str)
    (hp : p ≤ 0) (hr : received ops p = false) :
    (∃ u2, (runWrites path ops).write p d = .ok u2 ∧ etag u2 p = md5hex d ∧
      lookupKV u2.buffers p = some { data := some d, md5sum := md5hex d } ∧
      u2.fileContent = (runWrites path ops).fileContent) ∧
    (runWrites path (ops ++ (p, d) :: ops2)).fileContent =
      (runWrites path (ops ++ ops2)).fileContent ∧
    ((runWrites path (ops ++ (p, d) :: ops2)).closeFile).fileContent =
      (runWrites path (ops ++ ops2)).fileContent := by
  have hmain : ∀ opsA opsB : List (Int × Str),
      (∀ q : Int, 1 ≤ q → received opsA q = received opsB q) →
      (∀ q : Int, 1 ≤ q → received opsA q = true →
        firstData opsA q = firstData opsB q) →
      (runWrites path opsA).fileContent = (runWrites path opsB).fileContent := by
    intro opsA opsB hrcv hfd
    obtain ⟨kA, hgA, hpnA, hfcA, hshA⟩ := inv_runWrites path opsA
    obtain ⟨kB, hgB, hpnB, hfcB, hshB⟩ := inv_runWrites path opsB
    have hgAB : goodK opsB kA := by
      constructor
      · intro i hi
        rw [← hrcv ((i : Int) + 1) (by omega)]
        exact hgA.1 i hi
      · rw [← hrcv ((kA : Int) + 1) (by omega)]
        exact hgA.2
    obtain rfl : kB = kA := goodK_unique opsB kB kA hgB hgAB
    rw [hfcA, hfcB]
    apply flushJoin_congr
    intro i hi
    exact hfd ((i : Int) + 1) (by omega) (hgA.1 i hi)
  have hrcvs : ∀ q : Int, 1 ≤ q →
      received (ops ++ [(p, d)]) q = received ops q := by
    intro q hq
    rw [received_append]
    have hb : ((p, d).1 == q) = false := by
      show (p == q) = false
      have hne : ¬ p = q := by omega
      simpa using hne
    rw [hb, Bool.or_false]
  have hmid : (runWrites path (ops ++ (p, d) :: ops2)).fileContent =
      (runWrites path (ops ++ ops2)).fileContent := by
    apply hmain
    · intro q hq
      exact received_middle ops ops2 p d q (by omega)
    · intro q hq _
      exact firstData_middle ops ops2 p d q (by omega)
  refine ⟨?_, hmid, ?_⟩
  · -- the write itself succeeds, buffers and checksums, leaves the file alone
    obtain ⟨k, hg, hpn, hfc, hsh⟩ := inv_runWrites path ops
    have hlook : ¬ (lookupKV (runWrites path ops).buffers p).isSome := by
      rw [hsh p, hr]
      simp
    refine ⟨runWrites path (ops ++ [(p, d)]), ?_, ?_, ?_, ?_⟩
    · have hstep : runWrites path (ops ++ [(p, d)]) =
          match (runWrites path ops).write p d with
          | .ok u3 => u3
          | .error _ => runWrites path ops := runWrites_snoc path ops (p, d)
      cases hw : (runWrites path ops).write p d with
      | error e =>
        rw [MultipartUploader.write, if_neg hlook] at hw
        cases hw
      | ok u2 =>
        rw [hw] at hstep
        have hu2 : runWrites path (ops ++ [(p, d)]) = u2 := hstep
        rw [hu2]
    · obtain ⟨k2, hg2, hpn2, hfc2, hsh2⟩ := inv_runWrites path (ops ++ [(p, d)])
      have hrcv : received (ops ++ [(p, d)]) p = true := by
        rw [received_append]
        simp
      rw [etag, hsh2 p, hrcv]
      simp only [if_true, Option.map_some, Option.getD_some]
      rw [bufAt]
      show md5hex (firstData (ops ++ [(p, d)]) p) = md5hex d
      rw [firstData_append_new _ _ _ hr]
    · obtain ⟨k2, hg2, hpn2, hfc2, hsh2⟩ := inv_runWrites path (ops ++ [(p, d)])
      have hrcv : received (ops ++ [(p, d)]) p = true := by
        rw [received_append]
        simp
      rw [hsh2 p, hrcv]
      simp only [if_true]
      rw [bufAt, firstData_append_new _ _ _ hr]
      have hnot : ¬ (1 ≤ p ∧ p < (runWrites path (ops ++ [(p, d)])).part_number) := by
        rintro ⟨h1, _⟩
        omega
      rw [if_neg hnot]
    · apply hmain
      · intro q hq
        exact hrcvs q hq
      · intro q hq hrA
        have hrB : received ops q = true := by
          rw [← hrcvs q hq]
          exact hrA
        exact firstData_append_of_received ops [(p, d)] q hrB
  · -- a final flush adds nothing: the session is quiescent
    have hclose : ((runWrites path (ops ++ (p, d) :: ops2)).closeFile).fileContent =
        (runWrites path (ops ++ (p, d) :: ops2)).fileContent := by
      rw [MultipartUploader.closeFile,
        trigger_of_inv _ _ (inv_runWrites path (ops ++ (p, d) :: ops2))]
    rw [hclose]
    exact hmid

/-! ## Registry-level operations -/

theorem lookupKV_set_map {α β : Type} [DecidableEq α] (l : List (α × β))
    (k : α) (v : β) :
    lookupKV (l.map (fun e => if e.1 = k then (k, v) else e)) k =
      if (lookupKV l k).isSome then some v else none := by
  induction l with
  | nil => simp
  | cons e rest ih =>
    simp only [List.map_cons]
    by_cases he : e.1 = k
    · rw [if_pos he, lookupKV_cons, lookupKV_cons, if_pos rfl, if_pos he]
      simp
    · rw [if_neg he, lookupKV_cons, lookupKV_cons, if_neg he, if_neg he]
      exact ih

theorem lookupKV_setKV_self {α β : Type} [DecidableEq α] (l : List (α × β))
    (k : α) (v : β) : lookupKV (setKV l k v) k = some v := by
  rw [setKV]
  by_cases h : (lookupKV l k).isSome
  · rw [if_pos h, lookupKV_set_map, if_pos h]
  · rw [if_neg h, lookupKV_append,
      Option.not_isSome_iff_eq_none.mp h]
    simp

theorem factory_found (s : ServerState) (id : Str) (pa : Option Str)
    (u : MultipartUploader) (hu : lookupKV s.uploaders id = some u) :
    factory s id pa = (s, some u) := by
  unfold factory
  rw [hu]

theorem factory_missing (s : ServerState) (id : Str)
    (hu : lookupKV s.uploaders id = none) : factory s id none = (s, none) := by
  unfold factory
  rw [hu]

/-- Witness for C10: part number 0 is accepted and checksummed, but its
bytes never appear in the destination file. -/
theorem write_part_nonpositive_witness :
    ((0 : Int) ≤ 0 ∧ received [((1 : Int), ("A".data))] 0 = false) ∧
    (runWrites [] [((1 : Int), ("A".data)), (0, ("Z".data)), (2, ("B".data))]).fileContent =
      (runWrites [] [((1 : Int), ("A".data)), (2, ("B".data))]).fileContent ∧
    (runWrites [] [((1 : Int), ("A".data)), (0, ("Z".data)), (2, ("B".data))]).fileContent =
      ("AB".data) := by
  refine ⟨⟨le_refl 0, by decide⟩, ?_, by decide⟩
  exact (write_part_nonpositive_accepted_never_flushed []
    [((1 : Int), ("A".data))] [((2 : Int), ("B".data))] 0 ("Z".data)
    (le_refl 0) (by decide)).2.1

/-- C5 (amended): `complete` performs a final ordered flush, closes the
file handle, deregisters the upload id, and reports `(part_number,
checksum)` pairs for exactly the flushed contiguous prefix `1..k` —
buffered parts beyond a never-filled gap are omitted from the report. -/
theorem complete_reports_flushed_prefix (s : ServerState) (id path : Str)
    (ops : List (Int × Str)) (k : Nat) (hk : goodK ops k)
    (hu : lookupKV s.uploaders id = some (runWrites path ops)) :
    ∃ s2 : ServerState,
      completeOp s id = .ok (s2, (List.range k).map
        (fun (n : Nat) => ((n : Int) + 1, md5hex (firstData ops ((n : Int) + 1))))) ∧
      lookupKV s2.uploaders id = none ∧
      lookupKV s2.fs path = some (flushJoin ops k) ∧
      ((runWrites path ops).closeFile).fileOpen = false := by
  obtain ⟨k2, hg2, hpn, hfc, hsh⟩ := inv_runWrites path ops
  have hkk : k2 = k := goodK_unique ops k2 k hg2 hk
  rw [hkk] at hpn hfc
  have htrig : trigger_write_completion (runWrites path ops) = runWrites path ops :=
    trigger_of_inv ops _ (inv_runWrites path ops)
  have hclose : (runWrites path ops).closeFile =
      { runWrites path ops with fileOpen := false } := by
    rw [MultipartUploader.closeFile, htrig]
  have hfac : factory s id none = (s, some (runWrites path ops)) :=
    factory_found s id none _ hu
  have hdel : registryDel s.uploaders id = .ok (eraseKV s.uploaders id) := by
    rw [registryDel, if_pos (by rw [hu]; rfl)]
  have hparts : (((runWrites path ops).closeFile.part_number - 1).toNat) = k := by
    rw [hclose]
    show ((runWrites path ops).part_number - 1).toNat = k
    rw [hpn]
    omega
  have hetag : ∀ n : Nat, n < k →
      etag ((runWrites path ops).closeFile) ((n : Int) + 1) =
        md5hex (firstData ops ((n : Int) + 1)) := by
    intro n hn
    rw [hclose]
    show etag (runWrites path ops) ((n : Int) + 1) = _
    rw [etag, hsh ((n : Int) + 1), hk.1 n hn]
    simp only [if_true, Option.map_some, Option.getD_some]
    rfl
  have hcomp : completeOp s id = .ok
      ({ fs := setKV s.fs ((runWrites path ops).closeFile).path
            ((runWrites path ops).closeFile).fileContent,
         uploaders := eraseKV s.uploaders id },
       (List.range k).map
        (fun (n : Nat) => ((n : Int) + 1, md5hex (firstData ops ((n : Int) + 1))))) := by
    unfold completeOp
    rw [hfac]
    show ((match registryDel s.uploaders id with
      | Except.error e => Except.error e
      | Except.ok reg =>
        Except.ok ({ fs :=
                       setKV s.fs ((runWrites path ops).closeFile).path
                         ((runWrites path ops).closeFile).fileContent,
                     uploaders := reg },
          (List.range (((runWrites path ops).closeFile.part_number - 1).toNat)).map
            (fun (n : Nat) => ((n : Int) + 1,
              etag ((runWrites path ops).closeFile) ((n : Int) + 1))))) :
        Except S3Err (ServerState × List (Int × Str))) = Except.ok
      ({ fs := setKV s.fs ((runWrites path ops).closeFile).path
            ((runWrites path ops).closeFile).fileContent,
         uploaders := eraseKV s.uploaders id },
       (List.range k).map
        (fun (n : Nat) => ((n : Int) + 1, md5hex (firstData ops ((n : Int) + 1)))))
    rw [hdel, hparts]
    refine congrArg Except.ok (congrArg _ ?_)
    apply List.map_congr_left
    intro n hn
    rw [hetag n (List.mem_range.mp hn)]
  refine ⟨_, hcomp, ?_, ?_, ?_⟩
  · exact lookupKV_eraseKV_self _ _
  · show lookupKV (setKV s.fs ((runWrites path ops).closeFile).path
      ((runWrites path ops).closeFile).fileContent) path = _
    have hpath : ((runWrites path ops).closeFile).path = path := by
      rw [hclose]
      show (runWrites path ops).path = path
      exact (runWrites_path path ops).1
    have hcont : ((runWrites path ops).closeFile).fileContent = flushJoin ops k := by
      rw [hclose]
      show (runWrites path ops).fileContent = _
      exact hfc
    rw [hpath, hcont, lookupKV_setKV_self]
  · rw [hclose]

/-- Witness for C5 (amended) on a two-part out-of-order upload. -/
theorem complete_reports_flushed_prefix_witness :
    ∃ s2 : ServerState,
      completeOp (ServerState.mk [] [(("u1".data), runWrites ("/f".data)
          [((2 : Int), ("B".data)), (1, ("A".data))])]) ("u1".data) =
        .ok (s2, (List.range 2).map
          (fun (n : Nat) => ((n : Int) + 1,
            md5hex (firstData [((2 : Int), ("B".data)), (1, ("A".data))] ((n : Int) + 1))))) ∧
      lookupKV s2.uploaders ("u1".data) = none ∧
      lookupKV s2.fs ("/f".data) =
        some (flushJoin [((2 : Int), ("B".data)), (1, ("A".data))] 2) ∧
      ((runWrites ("/f".data)
        [((2 : Int), ("B".data)), (1, ("A".data))]).closeFile).fileOpen = false :=
  complete_reports_flushed_prefix
    (ServerState.mk [] [(("u1".data), runWrites ("/f".data)
        [((2 : Int), ("B".data)), (1, ("A".data))])])
    ("u1".data) ("/f".data) [((2 : Int), ("B".data)), (1, ("A".data))] 2
    (by decide) (by rfl)

/-- Counterexample to C5 as stated: with parts 1 and 3 received (part 2
missing), part 3 was buffered, yet the completion report lists only part
1 — not all parts ever buffered. -/
theorem complete_drops_gap_counterexample :
    ((completeOp (ServerState.mk [] [(("u1".data), runWrites ("/f".data)
        [((1 : Int), ("A".data)), (3, ("C".data))])]) ("u1".data)).toOption.map
      (fun pr => pr.2.map Prod.fst)) = some [(1 : Int)] ∧
    received [((1 : Int), ("A".data)), (3, ("C".data))] 3 = true ∧
    (lookupKV (runWrites ("/f".data)
      [((1 : Int), ("A".data)), (3, ("C".data))]).buffers 3).isSome = true := by
  refine ⟨?_, by decide, by decide⟩
  decide

/-- C8: `abort` on a registered upload succeeds (even with zero parts
received), deletes the destination file, removes the upload id from the
registry, and a subsequent `write_part` against that id fails with the
404 `NoSuchUpload` error. -/
theorem abort_deletes_and_deregisters (s : ServerState) (id : Str)
    (u : MultipartUploader) (hu : lookupKV s.uploaders id = some u) :
    ∃ s2 : ServerState, abortOp s id = .ok s2 ∧
      lookupKV s2.fs u.path = none ∧
      lookupKV s2.uploaders id = none ∧
      (∀ p d, writePartOp s2 id p d = .error (.httpError 404)) := by
  have hfac : factory s id none = (s, some u) := factory_found s id none _ hu
  have hdel : registryDel s.uploaders id = .ok (eraseKV s.uploaders id) := by
    rw [registryDel, if_pos (by rw [hu]; rfl)]
  refine ⟨{ fs := eraseKV s.fs u.path, uploaders := eraseKV s.uploaders id },
    ?_, ?_, ?_, ?_⟩
  · unfold abortOp
    rw [hfac]
    show ((match registryDel s.uploaders id with
      | Except.error e => Except.error e
      | Except.ok reg =>
          Except.ok (ServerState.mk (eraseKV s.fs u.path) reg)) :
        Except S3Err ServerState) =
      Except.ok (ServerState.mk (eraseKV s.fs u.path) (eraseKV s.uploaders id))
    rw [hdel]
  · exact lookupKV_eraseKV_self _ _
  · exact lookupKV_eraseKV_self _ _
  · intro p d
    unfold writePartOp
    rw [factory_missing _ _ (lookupKV_eraseKV_self _ _)]

/-- Witness for C8 on an upload with zero parts received. -/
theorem abort_deletes_and_deregisters_witness :
    ∃ s2 : ServerState,
      abortOp (ServerState.mk [(("/f".data), [])]
        [(("u".data), initUploader ("/f".data))]) ("u".data) = .ok s2 ∧
      lookupKV s2.fs (initUploader ("/f".data)).path = none ∧
      lookupKV s2.uploaders ("u".data) = none ∧
      (∀ p d, writePartOp s2 ("u".data) p d = .error (.httpError 404)) :=
  abort_deletes_and_deregisters
    (ServerState.mk [(("/f".data), [])] [(("u".data), initUploader ("/f".data))])
    ("u".data) (initUploader ("/f".data)) (by rfl)

/-- C9 (amended): deregistration removes a present upload id, but with an
absent id Python `del` raises `KeyError` — it is an error, not a no-op. -/
theorem registry_remove_not_idempotent (reg : List (Str × MultipartUploader))
    (id : Str) :
    ((lookupKV reg id).isSome = true →
      registryDel reg id = .ok (eraseKV reg id) ∧
        lookupKV (eraseKV reg id) id = none) ∧
    ((lookupKV reg id).isSome = false →
      registryDel reg id = .error .keyError) := by
  constructor
  · intro h
    exact ⟨by rw [registryDel, if_pos h], lookupKV_eraseKV_self _ _⟩
  · intro h
    rw [registryDel, if_neg (by rw [h]; exact Bool.false_ne_true)]

/-- Witness for C9 (amended): both branches at concrete registries. -/
theorem registry_remove_not_idempotent_witness :
    (registryDel [(("a".data), initUploader ("/f".data))] ("a".data) =
        .ok (eraseKV [(("a".data), initUploader ("/f".data))] ("a".data)) ∧
      lookupKV (eraseKV [(("a".data), initUploader ("/f".data))] ("a".data))
        ("a".data) = none) ∧
    registryDel ([] : List (Str × MultipartUploader)) ("y".data) = .error .keyError :=
  ⟨(registry_remove_not_idempotent [(("a".data), initUploader ("/f".data))]
      ("a".data)).1 (by rfl),
   (registry_remove_not_idempotent ([] : List (Str × MultipartUploader))
      ("y".data)).2 (by rfl)⟩

/-- Counterexample to C9 as stated: removing an absent upload id from the
empty registry raises `KeyError` instead of being a no-op. -/
theorem registry_remove_missing_raises :
    registryDel ([] : List (Str × MultipartUploader)) ("x".data) =
      .error .keyError := rfl

/-! ## Facts about path splitting and normalization -/

theorem splitSlash_nil : splitSlash [] = [[]] := rfl

theorem splitSlash_ne_nil (l : Str) : splitSlash l ≠ [] := by
  induction l with
  | nil => simp [splitSlash]
  | cons c rest ih =>
    show (if c = '/' then [] :: splitSlash rest
      else match splitSlash rest with
        | s :: ss => (c :: s) :: ss
        | [] => [[c]]) ≠ []
    by_cases h : c = '/'
    · simp [h]
    · rw [if_neg h]
      cases hs : splitSlash rest with
      | nil => simp
      | cons s ss => simp

theorem splitSlash_slash_cons (l : Str) :
    splitSlash ('/' :: l) = [] :: splitSlash l := rfl

theorem splitSlash_cons_ne (c : Char) (l : Str) (h : ¬ c = '/') :
    ∃ s ss, splitSlash l = s :: ss ∧ splitSlash (c :: l) = (c :: s) :: ss := by
  cases hs : splitSlash l with
  | nil => exact absurd hs (splitSlash_ne_nil l)
  | cons s ss =>
    refine ⟨s, ss, rfl, ?_⟩
    show (if c = '/' then [] :: splitSlash l
      else match splitSlash l with
        | s :: ss => (c :: s) :: ss
        | [] => [[c]]) = (c :: s) :: ss
    rw [if_neg h, hs]

theorem splitSlash_append_slash (xs ys : Str) :
    splitSlash (xs ++ '/' :: ys) = splitSlash xs ++ splitSlash ys := by
  induction xs with
  | nil => rw [List.nil_append, splitSlash_slash_cons, splitSlash_nil]; rfl
  | cons c rest ih =>
    by_cases h : c = '/'
    · subst h
      rw [List.cons_append, splitSlash_slash_cons, splitSlash_slash_cons, ih]
      rfl
    · obtain ⟨s, ss, hs, hcons⟩ := splitSlash_cons_ne c (rest ++ '/' :: ys) h
      obtain ⟨s2, ss2, hs2, hcons2⟩ := splitSlash_cons_ne c rest h
      rw [List.cons_append, hcons, hcons2]
      rw [hs2] at ih
      rw [ih] at hs
      cases hs
      rfl

theorem joinSlash_splitSlash (l : Str) : joinSlash (splitSlash l) = l := by
  induction l with
  | nil => rfl
  | cons c rest ih =>
    by_cases h : c = '/'
    · subst h
      rw [splitSlash_slash_cons]
      cases hs : splitSlash rest with
      | nil => exact absurd hs (splitSlash_ne_nil rest)
      | cons s ss =>
        rw [hs] at ih
        show ([] : Str) ++ '/' :: joinSlash (s :: ss) = '/' :: rest
        rw [List.nil_append, ih]
    · obtain ⟨s, ss, hs, hcons⟩ := splitSlash_cons_ne c rest h
      rw [hcons]
      rw [hs] at ih
      cases ss with
      | nil =>
        show c :: s = c :: rest
        rw [show joinSlash [s] = s from rfl] at ih
        rw [ih]
      | cons s2 ss2 =>
        show (c :: s) ++ '/' :: joinSlash (s2 :: ss2) = c :: rest
        rw [List.cons_append, ← ih]
        rfl

theorem splitSlash_no_slash (l : Str) : ∀ s ∈ splitSlash l, ¬ '/' ∈ s := by
  induction l with
  | nil =>
    intro s hs
    rw [splitSlash_nil, List.mem_singleton] at hs
    subst hs
    simp
  | cons c rest ih =>
    by_cases h : c = '/'
    · subst h
      rw [splitSlash_slash_cons]
      intro s hs
      rcases List.mem_cons.mp hs with h1 | h1
      · subst h1
        simp
      · exact ih s h1
    · obtain ⟨s0, ss, hs0, hcons⟩ := splitSlash_cons_ne c rest h
      rw [hcons]
      intro s hs
      rcases List.mem_cons.mp hs with h1 | h1
      · subst h1
        intro hmem
        rcases List.mem_cons.mp hmem with h2 | h2
        · exact h h2.symm
        · exact ih s0 (by rw [hs0]; exact List.mem_cons_self _ _) h2
      · exact ih s (by rw [hs0]; exact List.mem_cons_of_mem _ h1)

/-- On components that are each empty or normal, the `normpath` loop acts
as a filter keeping the normal ones. -/
theorem normLoop_normal (init : Nat) (l : List Str)
    (hl : ∀ c ∈ l, c = [] ∨ normalComp c = true) :
    ∀ acc : List Str, normLoop init acc l = acc ++ l.filter normalComp := by
  induction l with
  | nil => intro acc; simp [normLoop]
  | cons comp rest ih =>
    intro acc
    have hcomp := hl comp (List.mem_cons_self _ _)
    have hrest : ∀ c ∈ rest, c = [] ∨ normalComp c = true :=
      fun c hc => hl c (List.mem_cons_of_mem _ hc)
    rcases hcomp with h | h
    · subst h
      rw [normLoop, if_pos (Or.inl rfl), ih hrest acc, List.filter_cons]
      simp [normalComp]
    · have h0 : ¬ (comp = [] ∨ comp = ['.']) := by
        rw [normalComp] at h
        intro hor
        rcases hor with h1 | h1 <;> simp [h1] at h
      have h1 : ¬ comp = ['.', '.'] := by
        rw [normalComp] at h
        intro he
        simp [he] at h
      rw [normLoop, if_neg h0, if_pos (Or.inl h1), ih hrest (acc ++ [comp]),
        List.filter_cons, if_pos h]
      rw [List.append_assoc]
      rfl

/-- `normpath` leaves an absolute path with normal components unchanged. -/
theorem normpath_of_normal (dtail : Str)
    (hc : ∀ c ∈ splitSlash dtail, normalComp c = true) :
    normpath ('/' :: dtail) = '/' :: dtail := by
  have hhead : ∀ rest : Str, dtail = '/' :: rest → False := by
    intro rest he
    have h0 := hc [] (by rw [he, splitSlash_slash_cons]; exact List.mem_cons_self _ _)
    simp [normalComp] at h0
  have hcond1 : ('/' :: dtail).take 1 = ['/'] := rfl
  have hcond2 : ¬ (('/' :: dtail).take 2 = ['/', '/'] ∧
      ¬ ('/' :: dtail).take 3 = ['/', '/', '/']) := by
    rintro ⟨h2, _⟩
    cases dtail with
    | nil => simp at h2
    | cons c rest =>
      have ht : List.take 2 ('/' :: c :: rest) = ['/', c] := rfl
      rw [ht] at h2
      have hc2 : c = '/' := by simpa using h2
      exact hhead rest (by rw [hc2])
  have hmix : ∀ c ∈ ([] :: splitSlash dtail), c = [] ∨ normalComp c = true := by
    intro c hcm
    rcases List.mem_cons.mp hcm with h | h
    · exact Or.inl h
    · exact Or.inr (hc c h)
  have hnilcomp : normalComp ([] : Str) = false := by simp [normalComp]
  rw [normpath, if_neg (by simp)]
  rw [if_pos hcond1, if_neg hcond2]
  rw [splitSlash_slash_cons]
  show (if List.replicate 1 '/' ++ joinSlash (normLoop 1 [] ([] :: splitSlash dtail)) = []
    then ['.']
    else List.replicate 1 '/' ++ joinSlash (normLoop 1 [] ([] :: splitSlash dtail))) =
      '/' :: dtail
  rw [normLoop_normal 1 ([] :: splitSlash dtail) hmix [],
    List.nil_append, List.filter_cons, hnilcomp]
  simp only [Bool.false_eq_true, if_false]
  rw [List.filter_eq_self.mpr (fun c hcm => hc c hcm), joinSlash_splitSlash]
  have hrep : List.replicate 1 '/' ++ dtail = '/' :: dtail := rfl
  rw [hrep, if_neg (by simp)]

/-! ## Facts about normal path strings -/

theorem compsOK_ne_nil (s : Str) (h : compsOK s) : s ≠ [] := by
  intro he
  subst he
  have h0 := h [] (by rw [splitSlash_nil]; exact List.mem_singleton_self _)
  simp [normalComp] at h0

theorem compsOK_no_slash_cons (s : Str) (h : compsOK s) :
    ∀ rest : Str, s = '/' :: rest → False := by
  intro rest he
  have h0 := h [] (by rw [he, splitSlash_slash_cons]; exact List.mem_cons_self _ _)
  simp [normalComp] at h0

theorem compsOK_take1 (s : Str) (h : compsOK s) : s.take 1 ≠ ['/'] := by
  cases s with
  | nil => simp
  | cons c rest =>
    intro he
    have hc : c = '/' := by simpa using he
    exact compsOK_no_slash_cons _ h rest (by rw [hc])

theorem compsOK_last (s : Str) (h : compsOK s) : s.getLast? ≠ some '/' := by
  intro he
  have hsplit : s.dropLast ++ ['/'] = s :=
    List.dropLast_append_getLast? '/' (by rw [he]; rfl)
  have hmem : ([] : Str) ∈ splitSlash s := by
    rw [← hsplit]
    show ([] : Str) ∈ splitSlash (s.dropLast ++ '/' :: [])
    rw [splitSlash_append_slash, splitSlash_nil]
    exact List.mem_append_right _ (List.mem_singleton_self _)
  have h0 := h [] hmem
  simp [normalComp] at h0

theorem compsOK_append (a b : Str) (ha : compsOK a) (hb : compsOK b) :
    compsOK (a ++ '/' :: b) := by
  intro c hc
  rw [splitSlash_append_slash] at hc
  rcases List.mem_append.mp hc with h | h
  · exact ha c h
  · exact hb c h

theorem absOK_cons (dir : Str) (h : absOK dir) :
    ∃ dtail, dir = '/' :: dtail ∧ compsOK dtail := by
  obtain ⟨h1, h2⟩ := h
  cases dir with
  | nil => simp at h1
  | cons c rest =>
    have hc : c = '/' := by simpa using h1
    exact ⟨rest, by rw [hc], h2⟩

theorem pathJoin_of_normal (a b : Str) (hb : b.take 1 ≠ ['/'])
    (ha : a ≠ []) (hal : a.getLast? ≠ some '/') :
    pathJoin a b = a ++ '/' :: b := by
  rw [pathJoin, if_neg hb, if_neg (by rintro (h | h) <;> [exact ha h; exact hal h])]

/-- The bucket directory path `os.path.abspath(os.path.join(directory,
bucket))` is just the concatenation when both pieces are normal. -/
theorem bucketPath_eq (dir bucket : Str) (hd : absOK dir) (hb : compsOK bucket) :
    abspath (pathJoin dir bucket) = dir ++ '/' :: bucket := by
  obtain ⟨dtail, rfl, hdt⟩ := absOK_cons dir hd
  have hlast : ('/' :: dtail).getLast? ≠ some '/' := by
    cases dtail with
    | nil => exact absurd rfl (compsOK_ne_nil [] hdt)
    | cons d0 drest =>
      rw [List.getLast?_cons_cons]
      exact compsOK_last _ hdt
  rw [pathJoin_of_normal _ _ (compsOK_take1 bucket hb) (by simp) hlast]
  show normpath ('/' :: (dtail ++ '/' :: bucket)) = _
  rw [normpath_of_normal (dtail ++ '/' :: bucket) (compsOK_append dtail bucket hdt hb)]
  rfl

/-! ## Facts about the MD5 hex digest -/

theorem md5bytes_length (m : List Nat) : (md5bytes m).length = 16 := by
  unfold md5bytes
  rcases (takeChunks ((md5Pad m).length / 64) (md5Pad m)).foldl md5Chunk
    (0x67452301, 0xefcdab89, 0x98badcfe, 0x10325476) with ⟨a, b, c, d⟩
  simp [le4]

theorem flatten_byteHex_length (l : List Nat) :
    ((l.map byteHex).flatten).length = 2 * l.length := by
  induction l with
  | nil => rfl
  | cons b rest ih =>
    rw [List.map_cons, List.flatten_cons, List.length_append, ih]
    simp [byteHex]
    omega

theorem md5hex_length (s : Str) : (md5hex s).length = 32 := by
  rw [md5hex, flatten_byteHex_length, md5bytes_length]

theorem hexDigit_mem (n : Nat) : hexDigit n ∈ hexDigits := by
  rw [hexDigit]
  by_cases h : n < hexDigits.length
  · rw [List.getD_eq_getElem _ _ h]
    exact List.getElem_mem _
  · rw [List.getD_eq_default _ _ (by omega)]
    decide

theorem md5hex_no_slash (s : Str) : ∀ c ∈ md5hex s, ¬ c = '/' := by
  intro c hcm
  rw [md5hex, List.mem_flatten] at hcm
  obtain ⟨sub, hsub, hcsub⟩ := hcm
  rw [List.mem_map] at hsub
  obtain ⟨b, _, rfl⟩ := hsub
  rw [byteHex] at hcsub
  have hmem : c ∈ hexDigits := by
    rcases List.mem_cons.mp hcsub with h | h
    · rw [h]
      exact hexDigit_mem _
    · rw [List.mem_singleton] at h
      rw [h]
      exact hexDigit_mem _
  intro he
  subst he
  revert hmem
  decide

/-! ## The shard-directory fold of `_object_path` -/

theorem shardSkip_succ (d : Nat) :
    shardSkip (d + 1) = shardSkip d + (2 * (d + 1) + 1) := by
  rw [shardSkip, shardSkip, List.range_succ, List.foldl_append, List.foldl_cons,
    List.foldl_nil]

theorem shard_fold (hash base : Str) (h32 : hash.length = 32)
    (hns : ∀ c ∈ hash, ¬ c = '/') :
    ∀ d : Nat, d ≤ 16 → base ≠ [] → base.getLast? ≠ some '/' →
    ∃ suffix : Str,
      (List.range d).foldl (fun pth i => pathJoin pth (hash.take (2 * (i + 1)))) base
        = base ++ suffix ∧
      suffix.length = shardSkip d ∧
      (base ++ suffix) ≠ [] ∧
      (base ++ suffix).getLast? ≠ some '/' := by
  intro d
  induction d with
  | zero =>
    intro _ hbne hblast
    refine ⟨[], ?_, rfl, ?_, ?_⟩
    · simp
    · simpa using hbne
    · simpa using hblast
  | succ d ih =>
    intro hd hbne hblast
    obtain ⟨suffix, hfold, hlen, hne, hlast⟩ := ih (by omega) hbne hblast
    have hcl : (hash.take (2 * (d + 1))).length = 2 * (d + 1) := by
      rw [List.length_take, h32]
      omega
    have hcne : hash.take (2 * (d + 1)) ≠ [] := by
      intro he
      rw [he] at hcl
      simp at hcl
    have hchead : (hash.take (2 * (d + 1))).take 1 ≠ ['/'] := by
      intro he
      have hmem : '/' ∈ hash.take (2 * (d + 1)) := by
        have h1 : '/' ∈ (hash.take (2 * (d + 1))).take 1 := by
          rw [he]
          exact List.mem_singleton_self _
        exact List.mem_of_mem_take h1
      exact hns '/' (List.mem_of_mem_take hmem) rfl
    have hclast : (hash.take (2 * (d + 1))).getLast? ≠ some '/' := by
      intro he
      obtain ⟨hne2, hget⟩ := List.mem_getLast?_eq_getLast (by rw [he]; rfl)
      have hmem : '/' ∈ hash.take (2 * (d + 1)) := by
        rw [hget]
        exact List.getLast_mem _
      exact hns '/' (List.mem_of_mem_take hmem) rfl
    rw [List.range_succ, List.foldl_append, List.foldl_cons, List.foldl_nil, hfold,
      pathJoin_of_normal _ _ hchead hne hlast]
    refine ⟨suffix ++ '/' :: hash.take (2 * (d + 1)), by rw [List.append_assoc], ?_, ?_, ?_⟩
    · rw [List.length_append, hlen, shardSkip_succ, List.length_cons, hcl]
    · simp
    · rw [← List.append_assoc, List.getLast?_append_of_ne_nil _ (by simp)]
      rw [show ('/' :: hash.take (2 * (d + 1))).getLast? =
        (hash.take (2 * (d + 1))).getLast? from ?_]
      · exact hclast
      · cases hcc : hash.take (2 * (d + 1)) with
        | nil => exact absurd hcc hcne
        | cons c0 crest => rw [List.getLast?_cons_cons]

theorem drop_prefix_slash (l1 l2 : Str) :
    (l1 ++ '/' :: l2).drop (l1.length + 1) = l2 := by
  have harr : l1 ++ '/' :: l2 = (l1 ++ ['/']) ++ l2 := by simp
  rw [harr, show l1.length + 1 = (l1 ++ ['/']).length by simp, List.drop_left]

/-- C3 (amended): stripping the fixed-width bucket and shard prefix from
the resolved path recovers the key, provided the shard depth is at most
16 (the MD5 hex digest has only 32 characters) and the key has no empty,
`.` or `..` path segments and no leading slash (path normalization would
rewrite it otherwise). -/
theorem strip_resolve_roundtrip (dir bucket key : Str) (depth : Nat)
    (hd : absOK dir) (hb : compsOK bucket) (hk : compsOK key) (hdep : depth ≤ 16) :
    stripObjectName (abspath (pathJoin dir bucket)) depth
      (objectPath dir depth bucket key) = key := by
  have hbp := bucketPath_eq dir bucket hd hb
  obtain ⟨dtail, rfl, hdt⟩ := absOK_cons dir hd
  have hdirlast : ('/' :: dtail).getLast? ≠ some '/' := by
    cases dtail with
    | nil => exact absurd rfl (compsOK_ne_nil [] hdt)
    | cons d0 drest =>
      rw [List.getLast?_cons_cons]
      exact compsOK_last _ hdt
  have hbplast : (abspath (pathJoin ('/' :: dtail) bucket)).getLast? ≠ some '/' := by
    rw [hbp, List.getLast?_append_cons]
    cases hbc : bucket with
    | nil => exact absurd hbc (compsOK_ne_nil _ hb)
    | cons b0 brest =>
      rw [List.getLast?_cons_cons]
      have hl := compsOK_last bucket hb
      rw [hbc] at hl
      exact hl
  have hbpne : abspath (pathJoin ('/' :: dtail) bucket) ≠ [] := by
    rw [hbp]
    simp
  cases Nat.lt_or_ge depth 1 with
  | inl h0 =>
    obtain rfl : depth = 0 := by omega
    rw [objectPath, if_pos (by omega)]
    have hj1 : pathJoin ('/' :: dtail) bucket = ('/' :: dtail) ++ '/' :: bucket :=
      pathJoin_of_normal _ _ (compsOK_take1 bucket hb) (by simp) hdirlast
    have hj2last : ((('/' :: dtail) ++ '/' :: bucket)).getLast? ≠ some '/' := by
      rw [List.getLast?_append_cons]
      cases hbc : bucket with
      | nil => exact absurd hbc (compsOK_ne_nil _ hb)
      | cons b0 brest =>
        rw [List.getLast?_cons_cons]
        have hl := compsOK_last bucket hb
        rw [hbc] at hl
        exact hl
    rw [hj1, pathJoin_of_normal _ _ (compsOK_take1 key hk) (by simp) hj2last]
    have hassoc : (('/' :: dtail) ++ '/' :: bucket) ++ '/' :: key =
        '/' :: ((dtail ++ '/' :: bucket) ++ '/' :: key) := by
      simp
    rw [hassoc]
    show stripObjectName (abspath ('/' :: (dtail ++ '/' :: bucket))) 0
      (normpath ('/' :: ((dtail ++ '/' :: bucket) ++ '/' :: key))) = key
    rw [normpath_of_normal _
      (compsOK_append _ key (compsOK_append dtail bucket hdt hb) hk)]
    rw [show abspath ('/' :: (dtail ++ '/' :: bucket)) = '/' :: (dtail ++ '/' :: bucket) from
      normpath_of_normal _ (compsOK_append dtail bucket hdt hb)]
    rw [stripObjectName]
    exact drop_prefix_slash (('/' :: dtail) ++ '/' :: bucket) key
  | inr h1 =>
    rw [objectPath, if_neg (by omega)]
    show stripObjectName (abspath (pathJoin ('/' :: dtail) bucket)) depth
      (pathJoin ((List.range depth).foldl
        (fun pth i => pathJoin pth ((md5hex key).take (2 * (i + 1))))
        (abspath (pathJoin ('/' :: dtail) bucket))) key) = key
    obtain ⟨suffix, hfold, hslen, hne, hlast⟩ :=
      shard_fold (md5hex key) (abspath (pathJoin ('/' :: dtail) bucket))
        (md5hex_length key) (md5hex_no_slash key) depth hdep hbpne hbplast
    rw [hfold, pathJoin_of_normal _ _ (compsOK_take1 key hk) hne hlast]
    rw [stripObjectName]
    have harr : (abspath (pathJoin ('/' :: dtail) bucket) ++ suffix) ++ '/' :: key =
        ((abspath (pathJoin ('/' :: dtail) bucket) ++ suffix) ++ ['/']) ++ key := by
      simp
    have hcount : (abspath (pathJoin ('/' :: dtail) bucket)).length + 1 + shardSkip depth =
        ((abspath (pathJoin ('/' :: dtail) bucket) ++ suffix) ++ ['/']).length := by
      simp [List.length_append, hslen]
      omega
    rw [harr, hcount, List.drop_left]

/-- Witness for C3 (amended) at shard depth 2 with the key `a/b`. -/
theorem strip_resolve_roundtrip_witness :
    (absOK ("/tmp/s3".data) ∧ compsOK ("b".data) ∧ compsOK ("a/b".data) ∧ 2 ≤ 16) ∧
    stripObjectName (abspath (pathJoin ("/tmp/s3".data) ("b".data))) 2
      (objectPath ("/tmp/s3".data) 2 ("b".data) ("a/b".data)) = ("a/b".data) :=
  ⟨⟨by decide, by decide, by decide, by omega⟩,
   strip_resolve_roundtrip ("/tmp/s3".data) ("b".data) ("a/b".data) 2
     (by decide) (by decide) (by decide) (by omega)⟩

/-- Counterexample to C3 as stated: the round-trip fails for a key that
path normalization rewrites (`a//b` at depth 0) and for shard depth 17,
where the requested 34-character digest prefix exceeds the 32-character
MD5 hex digest. -/
theorem strip_resolve_roundtrip_counterexample :
    (stripObjectName (abspath (pathJoin ("/tmp/s3".data) ("b".data))) 0
        (objectPath ("/tmp/s3".data) 0 ("b".data) ("a//b".data)) ≠ ("a//b".data)) ∧
    (stripObjectName (abspath (pathJoin ("/tmp/s3".data) ("b".data))) 17
        (objectPath ("/tmp/s3".data) 17 ("b".data) ("k".data)) ≠ ("k".data)) := by
  constructor
  · decide
  · decide

/-- C2 (amended): the containment defense of `put` is a string-prefix
check: whenever the resolved object path does not start with the bucket
directory string the request fails (404 from the bucket checks or 403
from the object-path check) — in particular the traversal key
`../../etc/passwd` at depth 0 resolves outside that region after
normalization and is rejected with 403.  (The check admits escaping
paths that retain the bucket directory as a string prefix; see the
counterexample.) -/
theorem put_rejects_on_string_mismatch (isdir : Str → Bool) (dir : Str)
    (depth : Nat) (bucket key : Str)
    (h : (abspath (pathJoin dir bucket)).isPrefixOf
      (objectPath dir depth bucket key) = false) :
    ((putResolve isdir dir depth bucket key = .error (.httpError 404)) ∨
      (putResolve isdir dir depth bucket key = .error (.httpError 403))) ∧
    putResolve (fun pth => pth == ("/tmp/s3/b".data)) ("/tmp/s3".data) 0
      ("b".data) ("../../etc/passwd".data) = .error (.httpError 403) := by
  constructor
  · by_cases h404 : (¬ (dir.isPrefixOf (abspath (pathJoin dir bucket)) = true) ∨
        ¬ (isdir (abspath (pathJoin dir bucket)) = true))
    · left
      rw [putResolve, if_pos h404]
    · right
      rw [putResolve, if_neg h404,
        if_pos (Or.inl (by rw [h]; exact Bool.false_ne_true))]
  · rfl

/-- Witness for C2 (amended): an absolute key resets the join and fails
the string-prefix check. -/
theorem put_rejects_on_string_mismatch_witness :
    (((putResolve (fun pth => pth == ("/tmp/s3/b".data)) ("/tmp/s3".data) 0
        ("b".data) ("/abs/x".data) = .error (.httpError 404)) ∨
      (putResolve (fun pth => pth == ("/tmp/s3/b".data)) ("/tmp/s3".data) 0
        ("b".data) ("/abs/x".data) = .error (.httpError 403))) ∧
    putResolve (fun pth => pth == ("/tmp/s3/b".data)) ("/tmp/s3".data) 0
      ("b".data) ("../../etc/passwd".data) = .error (.httpError 403)) :=
  put_rejects_on_string_mismatch (fun pth => pth == ("/tmp/s3/b".data))
    ("/tmp/s3".data) 0 ("b".data) ("/abs/x".data) (by decide)

/-- Counterexample to C2 as stated: the key `../bx/s` in bucket `b`
resolves (after `abspath` normalization) to `/tmp/s3/bx/s`, which is not
a descendant of the bucket directory `/tmp/s3/b`, yet `put` does not
fail: the string-prefix check passes because the sibling path shares the
bucket directory as a string prefix, and the handler proceeds to create
directories and write at the escaped path. -/
theorem put_traversal_escape_counterexample :
    (putResolve (fun pth => pth == ("/tmp/s3/b".data)) ("/tmp/s3".data) 0
      ("b".data) ("../bx/s".data) = .ok ("/tmp/s3/bx/s".data)) ∧
    isDescendantB ("/tmp/s3/b".data) ("/tmp/s3/bx/s".data) = false ∧
    abspath (pathJoin ("/tmp/s3".data) ("b".data)) = ("/tmp/s3/b".data) := by
  refine ⟨by rfl, by decide, by decide⟩

/-! ## Facts about byte-wise string comparison -/

theorem strLt_cons_cons (a b : Char) (xs ys : Str) :
    strLt (a :: xs) (b :: ys) =
      (if a.toNat < b.toNat then true
       else if b.toNat < a.toNat then false
       else strLt xs ys) := rfl

theorem strLt_nil_right : ∀ x : Str, strLt x [] = false
  | [] => rfl
  | _ :: _ => rfl

theorem strLt_irrefl : ∀ x : Str, strLt x x = false
  | [] => rfl
  | a :: xs => by
    rw [strLt_cons_cons, if_neg (by omega), if_neg (by omega)]
    exact strLt_irrefl xs

theorem strLt_asymm : ∀ x y : Str, strLt x y = true → strLt y x = false
  | [], [] => fun h => by rw [strLt_nil_right] at h; cases h
  | [], b :: ys => fun _ => strLt_nil_right _
  | a :: xs, [] => fun h => by rw [strLt_nil_right] at h; cases h
  | a :: xs, b :: ys => fun h => by
    rw [strLt_cons_cons] at h ⊢
    by_cases hab : a.toNat < b.toNat
    · rw [if_neg (by omega), if_pos (by omega)]
    · rw [if_neg hab] at h
      by_cases hba : b.toNat < a.toNat
      · rw [if_pos hba] at h
        cases h
      · rw [if_neg hba] at h
        rw [if_neg hba, if_neg hab]
        exact strLt_asymm xs ys h

theorem strLt_lt_of_le : ∀ x y z : Str, strLt x y = true → strLt z y = false →
    strLt x z = true
  | _, [], _ => fun h _ => by rw [strLt_nil_right] at h; cases h
  | [], b :: ys, [] => fun _ h2 => by cases h2
  | [], b :: ys, c :: zs => fun _ _ => rfl
  | a :: xs, b :: ys, [] => fun _ h2 => by cases h2
  | a :: xs, b :: ys, c :: zs => fun h1 h2 => by
    rw [strLt_cons_cons] at h1 h2 ⊢
    by_cases hac : a.toNat < c.toNat
    · rw [if_pos hac]
    · rw [if_neg hac]
      by_cases hca : c.toNat < a.toNat
      · -- show the hypotheses are contradictory
        exfalso
        by_cases hab : a.toNat < b.toNat
        · rw [if_pos (by omega)] at h2
          cases h2
        · rw [if_neg hab] at h1
          by_cases hba : b.toNat < a.toNat
          · rw [if_pos hba] at h1
            cases h1
          · rw [if_pos (by omega)] at h2
            cases h2
      · rw [if_neg hca]
        have hac2 : a.toNat = c.toNat := by omega
        by_cases hab : a.toNat < b.toNat
        · rw [if_pos (by omega)] at h2
          cases h2
        · rw [if_neg hab] at h1
          by_cases hba : b.toNat < a.toNat
          · rw [if_pos hba] at h1
            cases h1
          · rw [if_neg hba] at h1
            rw [if_neg (by omega), if_neg (by omega)] at h2
            exact strLt_lt_of_le xs ys zs h1 h2

theorem strLeP_iff (u v : Str) : strLeP u v ↔ strLt v u = false := by
  rw [strLeP, strLe]
  cases strLt v u <;> simp

theorem sortStr_sorted (l : List Str) : List.Sorted strLeP (sortStr l) := by
  letI : IsTotal Str strLeP := by
    constructor
    intro a b
    by_cases h : strLt b a = true
    · right
      rw [strLeP_iff]
      exact strLt_asymm b a h
    · left
      rw [strLeP_iff]
      exact Bool.eq_false_iff.mpr h
  letI : IsTrans Str strLeP := by
    constructor
    intro a b c hab hbc
    rw [strLeP_iff] at hab hbc ⊢
    by_contra hca
    have hca2 : strLt c a = true := Bool.of_not_eq_false hca
    have := strLt_lt_of_le c a b hca2 hab
    rw [this] at hbc
    cases hbc
  exact List.sorted_insertionSort strLeP l

theorem sorted_le_getD (a : List Str) (hs : List.Sorted strLeP a) (i j : Nat)
    (hij : i ≤ j) (hj : j < a.length) :
    strLt (a.getD j []) (a.getD i []) = false := by
  have hi : i < a.length := lt_of_le_of_lt hij hj
  rw [List.getD_eq_getElem a [] hi, List.getD_eq_getElem a [] hj]
  rcases Nat.eq_or_lt_of_le hij with rfl | hlt
  · exact strLt_irrefl _
  · have h := hs.rel_get_of_lt (show (⟨i, hi⟩ : Fin a.length) < ⟨j, hj⟩ from hlt)
    rw [strLeP_iff] at h
    exact h

/-! ## The binary searches of `bisect` -/

theorem bisectRightAux_spec (a : List Str) (x : Str)
    (hs : List.Sorted strLeP a) :
    ∀ (fuel lo hi : Nat), lo ≤ hi → hi ≤ a.length → hi - lo ≤ fuel →
      lo ≤ bisectRightAux a x fuel lo hi ∧
      bisectRightAux a x fuel lo hi ≤ hi ∧
      (∀ j, lo ≤ j → j < bisectRightAux a x fuel lo hi →
        strLt x (a.getD j []) = false) ∧
      (∀ j, bisectRightAux a x fuel lo hi ≤ j → j < hi →
        strLt x (a.getD j []) = true) := by
  intro fuel
  induction fuel with
  | zero =>
    intro lo hi hlohi _ hfuel
    have : lo = hi := by omega
    subst this
    rw [bisectRightAux]
    exact ⟨le_refl _, le_refl _, fun j h1 h2 => by omega, fun j h1 h2 => by omega⟩
  | succ fuel ih =>
    intro lo hi hlohi hhi hfuel
    rw [bisectRightAux]
    by_cases hlt : lo < hi
    · rw [if_pos hlt]
      have hmidlo : lo ≤ (lo + hi) / 2 := by omega
      have hmidhi : (lo + hi) / 2 < hi := by omega
      by_cases hcmp : strLt x (a.getD ((lo + hi) / 2) [])
      · rw [if_pos hcmp]
        obtain ⟨h1, h2, h3, h4⟩ := ih lo ((lo + hi) / 2) hmidlo (by omega) (by omega)
        refine ⟨h1, by omega, h3, ?_⟩
        intro j hj1 hj2
        by_cases hjm : j < (lo + hi) / 2
        · exact h4 j hj1 hjm
        · have hle : strLt (a.getD j []) (a.getD ((lo + hi) / 2) []) = false :=
            sorted_le_getD a hs _ j (by omega) (by omega)
          exact strLt_lt_of_le x (a.getD ((lo + hi) / 2) []) (a.getD j []) hcmp hle
      · rw [if_neg hcmp]
        have hcmpf : strLt x (a.getD ((lo + hi) / 2) []) = false :=
          Bool.eq_false_iff.mpr hcmp
        obtain ⟨h1, h2, h3, h4⟩ := ih ((lo + hi) / 2 + 1) hi (by omega) hhi (by omega)
        refine ⟨by omega, h2, ?_, h4⟩
        intro j hj1 hj2
        by_cases hjm : (lo + hi) / 2 + 1 ≤ j
        · exact h3 j hjm hj2
        · -- j ≤ mid: a[j] ≤ a[mid] and x is not below a[mid]
          have hle : strLt (a.getD ((lo + hi) / 2) []) (a.getD j []) = false :=
            sorted_le_getD a hs j _ (by omega) (by omega)
          by_contra hxj
          have hxj2 : strLt x (a.getD j []) = true := Bool.of_not_eq_false hxj
          have := strLt_lt_of_le x (a.getD j []) (a.getD ((lo + hi) / 2) []) hxj2 hle
          rw [this] at hcmpf
          cases hcmpf
    · rw [if_neg hlt]
      exact ⟨le_refl _, by omega, fun j h1 h2 => by omega, fun j h1 h2 => by omega⟩

theorem strLt_le_of_lt (x y z : Str) (h1 : strLt y z = true)
    (h2 : strLt y x = false) : strLt x z = true := by
  by_contra hxz
  have hxz2 : strLt x z = false := Bool.eq_false_iff.mpr hxz
  have h3 := strLt_lt_of_le y z x h1 hxz2
  rw [h3] at h2
  cases h2

theorem bisectLeftAux_spec (a : List Str) (x : Str)
    (hs : List.Sorted strLeP a) :
    ∀ (fuel lo hi : Nat), lo ≤ hi → hi ≤ a.length → hi - lo ≤ fuel →
      lo ≤ bisectLeftAux a x fuel lo hi ∧
      bisectLeftAux a x fuel lo hi ≤ hi ∧
      (∀ j, lo ≤ j → j < bisectLeftAux a x fuel lo hi →
        strLt (a.getD j []) x = true) ∧
      (∀ j, bisectLeftAux a x fuel lo hi ≤ j → j < hi →
        strLt (a.getD j []) x = false) := by
  intro fuel
  induction fuel with
  | zero =>
    intro lo hi hlohi _ hfuel
    have hpe : lo = hi := by omega
    subst hpe
    rw [bisectLeftAux]
    exact ⟨le_refl _, le_refl _, fun j h1 h2 => by omega, fun j h1 h2 => by omega⟩
  | succ fuel ih =>
    intro lo hi hlohi hhi hfuel
    rw [bisectLeftAux]
    by_cases hlt : lo < hi
    · rw [if_pos hlt]
      have hmidlo : lo ≤ (lo + hi) / 2 := by omega
      have hmidhi : (lo + hi) / 2 < hi := by omega
      by_cases hcmp : strLt (a.getD ((lo + hi) / 2) []) x
      · rw [if_pos hcmp]
        obtain ⟨h1, h2, h3, h4⟩ := ih ((lo + hi) / 2 + 1) hi (by omega) hhi (by omega)
        refine ⟨by omega, h2, ?_, h4⟩
        intro j hj1 hj2
        by_cases hjm : (lo + hi) / 2 + 1 ≤ j
        · exact h3 j hjm hj2
        · have hle : strLt (a.getD ((lo + hi) / 2) []) (a.getD j []) = false :=
            sorted_le_getD a hs j _ (by omega) (by omega)
          exact strLt_le_of_lt (a.getD j []) (a.getD ((lo + hi) / 2) []) x hcmp hle
      · rw [if_neg hcmp]
        have hcmpf : strLt (a.getD ((lo + hi) / 2) []) x = false :=
          Bool.eq_false_iff.mpr hcmp
        obtain ⟨h1, h2, h3, h4⟩ := ih lo ((lo + hi) / 2) hmidlo (by omega) (by omega)
        refine ⟨h1, by omega, h3, ?_⟩
        intro j hj1 hj2
        by_cases hjm : j < (lo + hi) / 2
        · exact h4 j hj1 hjm
        · have hle : strLt (a.getD j []) (a.getD ((lo + hi) / 2) []) = false :=
            sorted_le_getD a hs _ j (by omega) (by omega)
          by_contra hxj
          have hxj2 : strLt (a.getD j []) x = true := Bool.of_not_eq_false hxj
          have h5 := strLt_le_of_lt (a.getD ((lo + hi) / 2) []) (a.getD j []) x hxj2 hle
          rw [h5] at hcmpf
          cases hcmpf
    · rw [if_neg hlt]
      exact ⟨le_refl _, by omega, fun j h1 h2 => by omega, fun j h1 h2 => by omega⟩

/-! ## The collection loop of the bucket listing -/

/-- Arithmetic of the truncation flag across one collection step. -/
theorem trunc_step (mk c : Int) (t : Nat) (hlt : c < mk) :
    (decide (mk - (c + 1) < (t : Int)) && decide (0 < t)) =
    (decide (mk - c < ((t : Int) + 1)) && decide (0 < t + 1)) := by
  have h2 : 0 < t + 1 := Nat.succ_pos t
  rw [decide_eq_true h2, Bool.and_true]
  by_cases ht : 0 < t
  · rw [decide_eq_true ht, Bool.and_true]
    exact decide_eq_decide.mpr (by omega)
  · have ht0 : t = 0 := by omega
    subst ht0
    rw [decide_eq_false ht, Bool.and_false]
    symm
    rw [decide_eq_false]
    push_cast
    omega

/-- Closed form of the collection loop: it appends the first
`max_keys - len(contents)` keys of the matching run (the longest initial
run of keys starting with the prefix), reports the last appended key as
the marker (keeping the incoming marker when nothing was appended), and
truncates exactly when the matching run holds strictly more keys than
the remaining allowance and at least one key. -/
theorem listLoop_spec (pfx : Str) (mk : Int) :
    ∀ (l contents : List Str) (marker : Str),
      listLoop pfx mk l contents marker =
        (contents ++ (l.takeWhile (fun n => pfx.isPrefixOf n)).take
            ((mk - (contents.length : Int)).toNat),
         ((l.takeWhile (fun n => pfx.isPrefixOf n)).take
            ((mk - (contents.length : Int)).toNat)).getLastD marker,
         (decide (mk - (contents.length : Int) <
             ((l.takeWhile (fun n => pfx.isPrefixOf n)).length : Int)) &&
          decide (0 < (l.takeWhile (fun n => pfx.isPrefixOf n)).length))) := by
  intro l
  induction l with
  | nil =>
    intro contents marker
    simp [listLoop, List.takeWhile_nil]
  | cons name rest ih =>
    intro contents marker
    by_cases hpfx : pfx.isPrefixOf name
    · rw [listLoop, if_neg (fun hc => hc hpfx), List.takeWhile_cons_of_pos hpfx]
      by_cases hfull : mk ≤ (contents.length : Int)
      · rw [if_pos hfull]
        have h0 : (mk - (contents.length : Int)).toNat = 0 := by omega
        have ha : decide (mk - (contents.length : Int) <
            ((name :: List.takeWhile (fun n => pfx.isPrefixOf n) rest).length : Int))
            = true := by
          rw [decide_eq_true_eq]
          push_cast [List.length_cons]
          omega
        have hb : decide
            (0 < (name :: List.takeWhile (fun n => pfx.isPrefixOf n) rest).length)
            = true := by
          rw [decide_eq_true_eq]
          simp
        rw [h0, List.take_zero, ha, hb]
        simp
      · rw [if_neg hfull]
        rw [ih (contents ++ [name]) name]
        have hlt : (contents.length : Int) < mk := by omega
        have hlen : ((contents ++ [name]).length : Int) = (contents.length : Int) + 1 := by
          rw [List.length_append, List.length_cons, List.length_nil]
          push_cast
          ring
        rw [hlen]
        have htn : (mk - (contents.length : Int)).toNat
            = (mk - ((contents.length : Int) + 1)).toNat + 1 := by omega
        rw [htn, List.take_succ_cons, List.getLastD_cons, List.append_assoc]
        have hcast : ((name :: List.takeWhile (fun n => pfx.isPrefixOf n) rest).length : Int)
            = ((List.takeWhile (fun n => pfx.isPrefixOf n) rest).length : Int) + 1 := by
          rw [List.length_cons]
          push_cast
          ring
        rw [hcast, List.length_cons]
        rw [trunc_step mk (contents.length : Int)
          (List.takeWhile (fun n => pfx.isPrefixOf n) rest).length hlt]
        rfl
    · rw [listLoop, if_pos hpfx, List.takeWhile_cons_of_neg hpfx]
      simp

/-- C6: the collection loop, started from the computed start position
with an empty accumulator, returns the first `max_keys` keys of the
matching run (the keys from the start position that still begin with the
prefix), stops with `truncated = false` when a key no longer begins with
the prefix (the run ended within the allowance), stops with
`truncated = true` when the matching run exceeds `max_keys`, and reports
the last collected key as the next marker — or the supplied marker when
nothing was collected; in particular, for the bucket `{a, ab, b, c}`
with empty prefix, empty marker and `max_keys = 1`, the listing returns
`[a]`, next marker `a`, `truncated = true`. -/
theorem listing_loop_truncation (object_names : List Str) (pfx marker : Str)
    (mk : Int) :
    (listKeys object_names pfx marker mk =
      ((((sortStr object_names).drop
            (startPos (sortStr object_names) pfx marker)).takeWhile
          (fun n => pfx.isPrefixOf n)).take mk.toNat,
       ((((sortStr object_names).drop
            (startPos (sortStr object_names) pfx marker)).takeWhile
          (fun n => pfx.isPrefixOf n)).take mk.toNat).getLastD marker,
       (decide (mk < ((((sortStr object_names).drop
            (startPos (sortStr object_names) pfx marker)).takeWhile
          (fun n => pfx.isPrefixOf n)).length : Int)) &&
        decide (0 < (((sortStr object_names).drop
            (startPos (sortStr object_names) pfx marker)).takeWhile
          (fun n => pfx.isPrefixOf n)).length)))) ∧
    listKeys [("a".data), ("ab".data), ("b".data), ("c".data)] [] [] 1 =
      ([("a".data)], ("a".data), true) := by
  constructor
  · show listLoop pfx mk
      ((sortStr object_names).drop (startPos (sortStr object_names) pfx marker))
      [] marker = _
    rw [listLoop_spec]
    simp
  · decide

/-- C7: the scan start position of the listing is computed as `p1`, the
smallest index whose key is strictly greater than the marker (index `0`
when the marker is empty), advanced — when the prefix is non-empty — to
`p2`, the smallest index at or after `p1` whose key is greater than or
equal to the prefix, never moving backward (`p1 ≤ p2`); in particular,
for the bucket `{a, ab, b, c}`, listing with empty prefix, marker `a`
and `max_keys = 50` returns `[ab, b, c]` (marker exclusive), and listing
with prefix `a`, empty marker and `max_keys = 50` returns `[a, ab]` with
`truncated = false`. -/
theorem listing_start_position (object_names : List Str) (pfx marker : Str)
    (p1 p2 : Nat)
    (hp1 : p1 = if marker = [] then 0 else bisect_right (sortStr object_names) marker 0)
    (hp2 : p2 = if pfx = [] then p1 else bisect_left (sortStr object_names) pfx p1) :
    startPos (sortStr object_names) pfx marker = p2 ∧
    p1 ≤ p2 ∧
    p2 ≤ (sortStr object_names).length ∧
    (marker = [] → p1 = 0) ∧
    (∀ j, j < p1 → strLt marker ((sortStr object_names).getD j []) = false) ∧
    (¬ marker = [] → p1 < (sortStr object_names).length →
      strLt marker ((sortStr object_names).getD p1 []) = true) ∧
    (¬ pfx = [] →
      (∀ j, p1 ≤ j → j < p2 →
        strLt ((sortStr object_names).getD j []) pfx = true) ∧
      (p2 < (sortStr object_names).length →
        strLt ((sortStr object_names).getD p2 []) pfx = false)) ∧
    listKeys [("b".data), ("a".data), ("c".data), ("ab".data)] [] ("a".data) 50 =
      ([("ab".data), ("b".data), ("c".data)], ("c".data), false) ∧
    listKeys [("b".data), ("a".data), ("c".data), ("ab".data)] ("a".data) [] 50 =
      ([("a".data), ("ab".data)], ("ab".data), false) := by
  have hs := sortStr_sorted object_names
  have hp1props : p1 ≤ (sortStr object_names).length ∧
      (∀ j, j < p1 → strLt marker ((sortStr object_names).getD j []) = false) ∧
      (¬ marker = [] → p1 < (sortStr object_names).length →
        strLt marker ((sortStr object_names).getD p1 []) = true) := by
    by_cases hm : marker = []
    · rw [hp1, if_pos hm]
      exact ⟨Nat.zero_le _, fun j hj => absurd hj (Nat.not_lt_zero j),
        fun hmm _ => absurd hm hmm⟩
    · rw [hp1, if_neg hm]
      have hbr : bisect_right (sortStr object_names) marker 0 =
          bisectRightAux (sortStr object_names) marker
            (sortStr object_names).length 0 (sortStr object_names).length := rfl
      rw [hbr]
      obtain ⟨h1, h2, h3, h4⟩ := bisectRightAux_spec (sortStr object_names) marker hs
        (sortStr object_names).length 0 (sortStr object_names).length
        (Nat.zero_le _) (le_refl _) (by omega)
      exact ⟨h2, fun j hj => h3 j (Nat.zero_le j) hj, fun _ hlt => h4 _ (le_refl _) hlt⟩
  have hp2props : p1 ≤ p2 ∧ p2 ≤ (sortStr object_names).length ∧
      (¬ pfx = [] →
        (∀ j, p1 ≤ j → j < p2 →
          strLt ((sortStr object_names).getD j []) pfx = true) ∧
        (p2 < (sortStr object_names).length →
          strLt ((sortStr object_names).getD p2 []) pfx = false)) := by
    by_cases hq : pfx = []
    · rw [hp2, if_pos hq]
      exact ⟨le_refl _, hp1props.1, fun hqq => absurd hq hqq⟩
    · rw [hp2, if_neg hq]
      have hbl : bisect_left (sortStr object_names) pfx p1 =
          bisectLeftAux (sortStr object_names) pfx
            (sortStr object_names).length p1 (sortStr object_names).length := rfl
      rw [hbl]
      obtain ⟨h1, h2, h3, h4⟩ := bisectLeftAux_spec (sortStr object_names) pfx hs
        (sortStr object_names).length p1 (sortStr object_names).length
        hp1props.1 (le_refl _) (by omega)
      exact ⟨h1, h2, fun _ => ⟨h3, fun hlt => h4 _ (le_refl _) hlt⟩⟩
  have hsp : startPos (sortStr object_names) pfx marker = p2 := by
    rw [hp2, hp1]
    rfl
  refine ⟨hsp, hp2props.1, hp2props.2.1, ?_, hp1props.2.1, hp1props.2.2,
    hp2props.2.2, by decide, by decide⟩
  intro hm
  rw [hp1, if_pos hm]

/-- The start-position theorem at the bucket `{a, ab, b, c}` (supplied
unsorted), prefix `a`, empty marker: both searches land on index `0`,
and the prefixed listing example holds. -/
theorem listing_start_position_witness :
    startPos (sortStr [("b".data), ("a".data), ("c".data), ("ab".data)])
      ("a".data) [] = 0 ∧
    listKeys [("b".data), ("a".data), ("c".data), ("ab".data)] ("a".data) [] 50 =
      ([("a".data), ("ab".data)], ("ab".data), false) :=
  ⟨(listing_start_position [("b".data), ("a".data), ("c".data), ("ab".data)]
      ("a".data) [] 0 0 (by decide) (by decide)).1,
   (listing_start_position [("b".data), ("a".data), ("c".data), ("ab".data)]
      ("a".data) [] 0 0 (by decide) (by decide)).2.2.2.2.2.2.2.2⟩

end S3
